import Mathlib

/-!
Shallow embedding of the Brain chat-export ingestion pipeline (src/app.py):
archive extraction, asset registration, conversation/message normalization,
asset linking, keyword categorization, the ingestion orchestrator, and the
manual conversation-move operation, together with theorems settling the
specification claims about them.

Modelling conventions:
* JSON values (the parsed content of `conversations.json`) are the inductive
  `JVal`; Python truthiness is `jTruthy`, `dict.get` is `jGet`.
* SQLite tables are Lean lists of rows; row ids (`uuid4` in the source) are
  drawn from a monotone counter `ctr`, so freshness is explicit.
* Library functions outside the repository (SHA-256, `float(str)`,
  `datetime.utcfromtimestamp().isoformat()`, `str()` on non-strings,
  `json.load`) are universally quantified function parameters.
* Machine floats of the source are modelled as rationals; the sort key
  `float("inf")` is the `⊤` of `WithTop ℚ`.
-/

namespace Brain

/-- A parsed JSON value, as produced by Python's `json.load`. -/
inductive JVal where
  | null : JVal
  | bool : Bool → JVal
  | num : ℚ → JVal
  | str : String → JVal
  | arr : List JVal → JVal
  | obj : List (String × JVal) → JVal

/-- Python truthiness of a parsed JSON value (`if x:`). -/
def jTruthy : JVal → Bool
  | .null => false
  | .bool b => b
  | .num q => q != 0
  | .str s => !s.isEmpty
  | .arr l => !l.isEmpty
  | .obj kvs => !kvs.isEmpty

/-- Python `d.get(key)` on a parsed JSON object; `none` when the value is not
an object or the key is absent. -/
def jGet (j : JVal) (key : String) : Option JVal :=
  match j with
  | .obj kvs => kvs.lookup key
  | _ => none

/-- Python `x or default` for JSON values. -/
def jOr (x : Option JVal) (dflt : JVal) : JVal :=
  match x with
  | some v => if jTruthy v then v else dflt
  | none => dflt

/-- Python `float(x)` on a parsed JSON value; `strToNum` stands for float
parsing of strings, `none` models a raised `TypeError`/`ValueError`. -/
def jToFloat (strToNum : String → Option ℚ) : JVal → Option ℚ
  | .num q => some q
  | .bool b => some (if b then 1 else 0)
  | .str s => strToNum s
  | _ => none

/-- Lower-casing of a string, char by char (Python `str.lower()` restricted to
basic latin, matching `Char.toLower`). -/
def lowerStr (s : String) : String :=
  ⟨s.data.map Char.toLower⟩

/-- Substring test on character lists (Python `needle in hay`). -/
def isSubOf (needle : List Char) : List Char → Bool
  | [] => needle.isEmpty
  | c :: t => needle.isPrefixOf (c :: t) || isSubOf needle t

/-- Python `needle in hay` on strings. -/
def strContains (hay needle : String) : Bool :=
  isSubOf needle.data hay.data

/-- Python `str.strip()`: trim whitespace on both ends. -/
def pyStrip (s : String) : String :=
  ⟨((s.data.dropWhile Char.isWhitespace).reverse.dropWhile Char.isWhitespace).reverse⟩

/-! ## slugify (src/app.py lines 45-46)

`re.sub(r"[^a-z0-9]+", "-", text.lower()).strip("-") or "category"` -/

/-- A character the regex class `[a-z0-9]` matches. -/
def isSlugChar (c : Char) : Bool :=
  ('a' ≤ c && c ≤ 'z') || ('0' ≤ c && c ≤ '9')

/-- Collapse every run of consecutive dashes to a single dash. -/
def squashDashes : List Char → List Char
  | [] => []
  | [c] => [c]
  | c :: d :: rest =>
    if c == '-' && d == '-' then squashDashes (d :: rest)
    else c :: squashDashes (d :: rest)

/-- The substitution `re.sub("[^a-z0-9]+", "-", ·)`: every character outside
`[a-z0-9]` becomes a dash and each maximal dash run is collapsed to one. -/
def collapseRuns (l : List Char) : List Char :=
  squashDashes (l.map (fun c => if isSlugChar c then c else '-'))

/-- Python `str.strip("-")`: drop dashes on both ends. -/
def stripDash (l : List Char) : List Char :=
  ((l.dropWhile (· == '-')).reverse.dropWhile (· == '-')).reverse

/-- Slug derivation (src/app.py `slugify`): lower-case, collapse runs of
non-alphanumerics to a dash, strip dashes, fall back to "category" when
empty (the `or "category"` on the falsy empty string). -/
def slugify (text : String) : String :=
  let core := stripDash (collapseRuns (text.data.map Char.toLower))
  if core.isEmpty then "category" else ⟨core⟩

/-! ## Data model: rows of the SQLite tables (src/app.py `init_db`) -/

/-- A row of the `exports` table (fields the core reads or writes). -/
structure ExportRow where
  id : Nat
  status : String
  error_message : Option String
deriving DecidableEq

/-- A row of the `conversations` table. -/
structure ConvRow where
  id : Nat
  export_id : Nat
  external_id : Option JVal
  title : String
  conversation_date : Option String

/-- A row of the `messages` table. -/
structure MsgRow where
  id : Nat
  export_id : Nat
  conversation_id : Nat
  role : JVal
  content_text : String
  created_at : Option String

/-- A row of the `assets` table. -/
structure Asset where
  id : Nat
  export_id : Nat
  conversation_id : Option Nat
  message_id : Option Nat
  asset_type : String
  original_name : String
  storage_path : List String
  byte_size : Nat
  checksum_sha256 : String
deriving DecidableEq

/-- A row of the `categories` table. -/
structure Category where
  id : Nat
  export_id : Nat
  name : String
  slug : String
  is_system : Nat
deriving DecidableEq

/-- A row of the `conversation_categories` table. -/
structure Edge where
  conversation_id : Nat
  category_id : Nat
  source : String
  confidence : Option ℚ
deriving DecidableEq

/-- The relational store plus the permanent storage directory. `ctr` is the
source of fresh row identifiers (`uuid4` in the source); `storageFS` maps a
path relative to the storage root to the bytes stored there. -/
structure DB where
  exports : List ExportRow
  conversations : List ConvRow
  messages : List MsgRow
  assets : List Asset
  categories : List Category
  convCats : List Edge
  ctr : Nat
  storageFS : List (List String × List Nat)

/-! ## Filesystem primitives for the storage model -/

/-- Write bytes at a path: replace an existing file in place, else append
(the order of `rglob` traversal is the insertion order of this list). -/
def fsWrite (fs : List (List String × List Nat)) (p : List String) (d : List Nat) :
    List (List String × List Nat) :=
  if fs.any (fun e => e.1 == p) then fs.map (fun e => if e.1 == p then (p, d) else e)
  else fs ++ [(p, d)]

/-- Read the bytes stored at a path. -/
def fsLookup (fs : List (List String × List Nat)) (p : List String) : Option (List Nat) :=
  (fs.find? (fun e => e.1 == p)).map (fun e => e.2)

/-! ## ensure_category (src/app.py lines 138-150) -/

/-- Look up the export's category with the given slug; reuse it when present,
otherwise insert a fresh row. Returns the updated table, the updated id
counter, and the category id. -/
def ensure_category (cats : List Category) (ctr : Nat) (export_id : Nat)
    (name : String) (is_system : Nat) : List Category × Nat × Nat :=
  let slug := slugify name
  match cats.find? (fun c => c.export_id == export_id && c.slug == slug) with
  | some c => (cats, ctr, c.id)
  | none =>
    (cats ++ [⟨ctr, export_id, name, slug, is_system⟩], ctr + 1, ctr)

/-! ## classify_asset (src/app.py lines 127-135) -/

def IMAGE_EXTS : List String := [".png", ".jpg", ".jpeg", ".gif", ".webp", ".bmp", ".svg"]
def AUDIO_EXTS : List String := [".mp3", ".wav", ".m4a", ".ogg", ".flac", ".aac"]
def IGNORE_EXTS : List String := [".json", ".html", ".md"]

/-- Python `Path(name).suffix` for a bare file name: the final extension
including its dot, empty when there is no dot or the only dot is leading. -/
def suffixOfName (name : String) : String :=
  let cs := name.data
  if cs.contains '.' then
    let after := cs.reverse.takeWhile (fun c => c ≠ '.')
    if after.length + 2 ≤ cs.length then ⟨'.' :: after.reverse⟩ else ""
  else ""

/-- Map a file name to an asset kind by its lower-cased extension; `none`
(Python `None`) means the file is ignored. -/
def classify_asset (file_name : String) : Option String :=
  let ext := lowerStr (suffixOfName file_name)
  if IMAGE_EXTS.contains ext then some "image"
  else if AUDIO_EXTS.contains ext then some "audio"
  else if IGNORE_EXTS.contains ext then none
  else some "file"

/-! ## safe_extract (src/app.py lines 153-165) -/

/-- One zip archive member: whether its path is absolute, its path segments
(Python `Path(member.filename).parts`, without the root segment), whether it
is a directory entry, and its byte content. -/
structure ZipEntry where
  absolute : Bool
  parts : List String
  isDir : Bool
  bytes : List Nat
deriving DecidableEq

/-- A filesystem effect of extraction: a directory created or a file written
at an absolute path. -/
structure FsWriteOp where
  path : List String
  isDir : Bool
  bytes : List Nat
deriving DecidableEq

/-- Whether `safe_extract` skips this member (absolute path or a `..` path
segment). -/
def escapes (e : ZipEntry) : Bool :=
  e.absolute || e.parts.contains ".."

/-- The filesystem writes extraction performs for one kept member: create the
parent directory, then create the directory or write the file. -/
def extractOps (dest : List String) (e : ZipEntry) : List FsWriteOp :=
  ⟨dest ++ e.parts.dropLast, true, []⟩ ::
    (if e.isDir then [⟨dest ++ e.parts, true, []⟩] else [⟨dest ++ e.parts, false, e.bytes⟩])

/-- Extract an archive into a destination directory, silently skipping every
member whose path is absolute or contains a parent-directory segment; the
result is the list of filesystem writes performed, in order. -/
def safe_extract (dest : List String) (entries : List ZipEntry) : List FsWriteOp :=
  entries.flatMap (fun e => if escapes e then [] else extractOps dest e)

/-- The file contents of a temporary directory after `safe_extract` into it:
the file writes of extraction, applied in order to an empty directory. -/
def runExtract (entries : List ZipEntry) : List (List String × List Nat) :=
  entries.foldl
    (fun fs e => if escapes e || e.isDir then fs else fsWrite fs e.parts e.bytes) []

/-! ## Library functions external to the repository -/

/-- The standard-library functions the pipeline calls, as abstract parameters:
SHA-256 hex digest, `datetime.utcfromtimestamp(·).isoformat()` (`none` when
the conversion raises), `float(·)` on strings (`none` when it raises),
`str(·)` on non-string JSON values, and `json.load`. -/
structure Libs where
  sha256 : List Nat → String
  isoOf : ℚ → Option String
  strToNum : String → Option ℚ
  pyStr : JVal → String
  jsonLoad : List Nat → Except String JVal

/-- Python `str(v)` on a parsed JSON value: a string is itself, anything else
goes through the library rendering. -/
def pyStrOf (L : Libs) : JVal → String
  | .str s => s
  | v => L.pyStr v

/-! ## parse_iso_or_none (src/app.py lines 168-174) -/

/-- Convert an epoch-seconds JSON value to an ISO timestamp; a missing value,
a JSON `null` (Python `None`), an unconvertible value, or a failing calendar
conversion all yield `none`, never an error. -/
def parse_iso_or_none (L : Libs) (ts : Option JVal) : Option String :=
  match ts with
  | none => none
  | some .null => none
  | some v =>
    match jToFloat L.strToNum v with
    | some q => L.isoOf q
    | none => none

/-! ## Conversation normalization (src/app.py lines 258-287) -/

/-- Collect the non-empty `message` payloads of a conversation's `mapping`
(`mapping = conv.get("mapping") or {}`; `message = (node or {}).get("message")`;
kept only when truthy), in mapping order. -/
def convMessages (conv : JVal) : List JVal :=
  match jOr (jGet conv "mapping") (.obj []) with
  | .obj kvs =>
    kvs.filterMap (fun kv =>
      match jGet (jOr (some kv.2) (.obj [])) "message" with
      | some m => if jTruthy m then some m else none
      | none => none)
  | _ => []

/-- The numeric sort key of a message (`sort_key` in `parse_export`): its
`create_time` as a float, with a missing, null, or unconvertible value mapped
to positive infinity. -/
def sort_key (strToNum : String → Option ℚ) (msg : JVal) : WithTop ℚ :=
  match jGet msg "create_time" with
  | none => ⊤
  | some .null => ⊤
  | some v =>
    match jToFloat strToNum v with
    | some q => (q : WithTop ℚ)
    | none => ⊤

/-- Python `sorted(nodes, key=sort_key)`: a stable merge sort by the numeric
key, ascending. -/
def sortedNodes (strToNum : String → Option ℚ) (nodes : List JVal) : List JVal :=
  nodes.mergeSort (fun a b => decide (sort_key strToNum a ≤ sort_key strToNum b))

/-- Whether a JSON value is `null`. -/
def jIsNull : JVal → Bool
  | .null => true
  | _ => false

/-- The text of one message: join its non-null content parts with newlines and
strip surrounding whitespace. -/
def msgText (L : Libs) (msg : JVal) : String :=
  let content := jOr (jGet msg "content") (.obj [])
  let parts :=
    match jOr (jGet content "parts") (.arr []) with
    | .arr l => l
    | _ => []
  pyStrip (String.intercalate "\n" ((parts.filter (fun p => !jIsNull p)).map (pyStrOf L)))

/-- The author role of a message, defaulting to "unknown". -/
def msgRole (msg : JVal) : JVal :=
  jOr (jGet (jOr (jGet msg "author") (.obj [])) "role") (.str "unknown")

/-! ## Asset linking (src/app.py lines 289-298) -/

/-- The SQL `UPDATE assets SET conversation_id = COALESCE(conversation_id, ?),
message_id = COALESCE(message_id, ?) WHERE id = ?`: fill the association of
one asset only where it is still null. -/
def linkAssetsUpd (assets : List Asset) (aid conv_id msg_id : Nat) : List Asset :=
  assets.map (fun a =>
    if a.id == aid then
      { a with conversation_id := some (a.conversation_id.getD conv_id),
               message_id := some (a.message_id.getD msg_id) }
    else a)

/-- For one message's lowered text, link every registered asset whose file
name occurs in it as a substring. -/
def linkMentions (fmap : List (String × List Nat)) (lowered : String)
    (conv_id msg_id : Nat) (assets : List Asset) : List Asset :=
  fmap.foldl
    (fun assets entry =>
      if strContains lowered entry.1 then
        entry.2.foldl (fun assets aid => linkAssetsUpd assets aid conv_id msg_id) assets
      else assets)
    assets

/-! ## Categorization (src/app.py lines 27-31 and 300-322) -/

def CATEGORY_RULES : List (String × List String) :=
  [("housing court case", ["housing court", "eviction", "lease", "landlord", "tenant"]),
   ("dog", ["dog", "puppy", "canine", "vet"]),
   ("restaurant", ["restaurant", "menu", "reservation", "chef", "dining"])]

/-- The rules whose keyword list matches the conversation blob. -/
def matchedRules (blob : String) : List (String × List String) :=
  CATEGORY_RULES.filter (fun r => r.2.any (fun kw => strContains blob kw))

/-- The SQL `INSERT OR IGNORE INTO conversation_categories`: a no-op when an
edge for the same (conversation, category) primary key already exists. -/
def insertOrIgnoreEdge (edges : List Edge) (e : Edge) : List Edge :=
  if edges.any (fun x =>
      x.conversation_id == e.conversation_id && x.category_id == e.category_id)
  then edges else edges ++ [e]

/-- One categorization step for one rule: when any keyword matches the blob,
ensure the rule's category and insert an `auto` edge with confidence 1.0. -/
def categorizeStep (export_id conv_id : Nat) (blob : String)
    (acc : DB × Bool) (rule : String × List String) : DB × Bool :=
  let (db, _matched) := acc
  if rule.2.any (fun kw => strContains blob kw) then
    let ec := ensure_category db.categories db.ctr export_id rule.1 1
    ({ db with categories := ec.1, ctr := ec.2.1,
               convCats := insertOrIgnoreEdge db.convCats ⟨conv_id, ec.2.2, "auto", some 1⟩ },
     true)
  else acc

/-- Automatic categorization of one conversation: insert an `auto` edge for
every matching rule; when none matched, fall back to a single edge to the
`uncategorized` category. -/
def autoCategorize (db : DB) (export_id conv_id : Nat) (blob : String) : DB :=
  let r := CATEGORY_RULES.foldl (categorizeStep export_id conv_id blob) (db, false)
  if r.2 then r.1
  else
    let db := r.1
    let ec := ensure_category db.categories db.ctr export_id "uncategorized" 1
    { db with categories := ec.1, ctr := ec.2.1,
              convCats := insertOrIgnoreEdge db.convCats ⟨conv_id, ec.2.2, "auto", some 1⟩ }

/-! ## Asset registration (src/app.py lines 202-233) -/

/-- `file_map.setdefault(name, []).append(asset_id)`: append the asset id to
the name's bucket, creating the bucket on first use. -/
def fileMapAdd (m : List (String × List Nat)) (k : String) (aid : Nat) :
    List (String × List Nat) :=
  if m.any (fun e => e.1 == k) then
    m.map (fun e => if e.1 == k then (e.1, e.2 ++ [aid]) else e)
  else m ++ [(k, [aid])]

/-- The permanent storage path of one extracted file, relative to the storage
root (`str(target.relative_to(STORAGE_DIR))`). -/
def assetTarget (export_id : Nat) (rel : List String) : List String :=
  ["exports", toString export_id, "extracted"] ++ rel

/-- One registration step for one extracted file: skip the manifest, copy the
file into permanent per-export storage, classify it by name, and — unless
ignored — insert an asset row whose checksum and size come from the file's
bytes, recording the asset id in the file-name index. -/
def registerStep (L : Libs) (export_id : Nat) (convPath : List String)
    (acc : DB × List (String × List Nat)) (f : List String × List Nat) :
    DB × List (String × List Nat) :=
  let (db, fmap) := acc
  if f.1 == convPath then acc
  else
    let target := assetTarget export_id f.1
    let db := { db with storageFS := fsWrite db.storageFS target f.2 }
    let name := f.1.getLastD ""
    match classify_asset name with
    | none => (db, fmap)
    | some ty =>
      ({ db with
           assets := db.assets ++
             [⟨db.ctr, export_id, none, none, ty, name, target, f.2.length, L.sha256 f.2⟩],
           ctr := db.ctr + 1 },
       fileMapAdd fmap (lowerStr name) db.ctr)

/-- Register every extracted file other than the manifest, returning the
updated store and the case-insensitive file-name → asset-ids index. -/
def registerAssets (L : Libs) (export_id : Nat) (convPath : List String)
    (tmpFS : List (List String × List Nat)) (db : DB) :
    DB × List (String × List Nat) :=
  tmpFS.foldl (registerStep L export_id convPath) (db, [])

/-! ## Conversation processing (src/app.py lines 235-322) -/

/-- One message step inside a conversation: insert the message row and, when
its text is non-empty, extend the conversation blob and link mentioned
assets. -/
def messageStep (L : Libs) (fmap : List (String × List Nat))
    (export_id conv_id : Nat) (acc : DB × List String) (msg : JVal) :
    DB × List String :=
  let (db, parts) := acc
  let text := msgText L msg
  let msg_id := db.ctr
  let db := { db with
    messages := db.messages ++
      [⟨msg_id, export_id, conv_id, msgRole msg, text, parse_iso_or_none L (jGet msg "create_time")⟩],
    ctr := db.ctr + 1 }
  if text.isEmpty then (db, parts)
  else
    ({ db with assets := linkMentions fmap (lowerStr text) conv_id msg_id db.assets },
     parts ++ [text])

/-- Process one conversation record: insert the conversation row, persist its
messages in stable timestamp order, link mentioned assets, and categorize the
accumulated text blob. -/
def processConv (L : Libs) (export_id : Nat) (fmap : List (String × List Nat))
    (db : DB) (conv : JVal) : DB :=
  let conv_id := db.ctr
  let title := pyStrOf L (jOr (jGet conv "title") (.str "Untitled"))
  let db := { db with
    conversations := db.conversations ++
      [⟨conv_id, export_id, jGet conv "id", title,
        parse_iso_or_none L (jGet conv "create_time")⟩],
    ctr := db.ctr + 1 }
  let sorted := sortedNodes L.strToNum (convMessages conv)
  let r := sorted.foldl (messageStep L fmap export_id conv_id) (db, [title])
  autoCategorize r.1 export_id conv_id (lowerStr (String.intercalate "\n" r.2))

/-! ## The orchestrator parse_export (src/app.py lines 177-337) -/

/-- Find the manifest: the first extracted file named `conversations.json`
(`next(tmp_path.rglob("conversations.json"), None)`). -/
def findManifest (fs : List (List String × List Nat)) :
    Option (List String × List Nat) :=
  fs.find? (fun e => e.1.getLast? == some "conversations.json")

/-- `UPDATE exports SET status = ? WHERE id = ?`. -/
def updStatus (exports : List ExportRow) (eid : Nat) (st : String) : List ExportRow :=
  exports.map (fun r => if r.id == eid then { r with status := st } else r)

/-- `UPDATE exports SET status = ?, error_message = ? WHERE id = ?`. -/
def updStatusErr (exports : List ExportRow) (eid : Nat) (st : String)
    (err : Option String) : List ExportRow :=
  exports.map (fun r =>
    if r.id == eid then { r with status := st, error_message := err } else r)

/-- The body of `parse_export`'s `try` block: extract the archive, locate and
parse the manifest, register assets, then normalize, link, and categorize
every conversation. The optional string is the message of a raised exception;
the returned store keeps the writes made before the raise (the source commits
them together with the failure status). -/
def ingestBody (L : Libs) (export_id : Nat) (archive : Except String (List ZipEntry))
    (db : DB) : DB × Option String :=
  match archive with
  | .error e => (db, some e)
  | .ok entries =>
    let tmpFS := runExtract entries
    match findManifest tmpFS with
    | none => (db, some "Missing conversations.json in ZIP export")
    | some conv_file =>
      match L.jsonLoad conv_file.2 with
      | .error e => (db, some e)
      | .ok payload =>
        match payload with
        | .arr convs =>
          let r := registerAssets L export_id conv_file.1 tmpFS db
          (convs.foldl (processConv L export_id r.2) r.1, none)
        | _ => (db, some "conversations.json must contain a list")

/-- The ingestion orchestrator: mark the export `processing`, run the
pipeline, then record `ready` (clearing the error message) on success or
`failed` with the exception's message on failure, re-raising the exception
(the returned optional string) to the caller. -/
def parse_export (L : Libs) (export_id : Nat) (archive : Except String (List ZipEntry))
    (db : DB) : DB × Option String :=
  let db := { db with exports := updStatus db.exports export_id "processing" }
  let r := ingestBody L export_id archive db
  match r.2 with
  | none =>
    ({ r.1 with exports := updStatusErr r.1.exports export_id "ready" none }, none)
  | some msg =>
    ({ r.1 with exports := updStatusErr r.1.exports export_id "failed" (some msg) },
     some msg)

/-! ## move_conversation (src/app.py lines 495-523) -/

/-- An HTTP error raised to the caller; raising it discards the connection's
uncommitted writes, so the store is returned unchanged alongside it. -/
structure HTTPErr where
  status_code : Nat
  detail : String
deriving DecidableEq

/-- The manual conversation move: 404 when the conversation does not exist in
the export; resolve the target category from a non-empty new name (ensuring
it) or from the supplied category id; 400 when neither is supplied; otherwise
delete all of the conversation's edges and insert one `manual` edge. The
supplied category id is not checked against the categories table, and foreign
keys are not enforced on the per-request connection (`get_conn` never re-runs
`PRAGMA foreign_keys`), so the insert succeeds even for a dangling id. -/
def move_conversation (db : DB) (export_id conversation_id : Nat)
    (category_id : Option Nat) (new_category : Option String) : Except HTTPErr DB :=
  match db.conversations.find? (fun c =>
      c.id == conversation_id && c.export_id == export_id) with
  | none => .error ⟨404, "Conversation not found"⟩
  | some _ =>
    let r :=
      match new_category with
      | some s =>
        if !s.isEmpty then
          let ec := ensure_category db.categories db.ctr export_id s 0
          (ec.1, ec.2.1, some ec.2.2)
        else (db.categories, db.ctr, category_id)
      | none => (db.categories, db.ctr, category_id)
    match r.2.2 with
    | none => .error ⟨400, "Category is required"⟩
    | some target =>
      let edges := db.convCats.filter (fun e => e.conversation_id != conversation_id)
      .ok { db with
              categories := r.1, ctr := r.2.1,
              convCats := insertOrIgnoreEdge edges ⟨conversation_id, target, "manual", none⟩ }

/-! # Theorems -/

/-! ## Helper lemmas about slugify -/

theorem toLower_not_slug (c : Char) (h : c.isAlphanum = false) :
    isSlugChar c.toLower = false := by
  unfold Char.toLower
  have e48 : (48 : UInt32).toBitVec.toNat = 48 := rfl
  have e57 : (57 : UInt32).toBitVec.toNat = 57 := rfl
  have e65 : (65 : UInt32).toBitVec.toNat = 65 := rfl
  have e90 : (90 : UInt32).toBitVec.toNat = 90 := rfl
  have e97 : (97 : UInt32).toBitVec.toNat = 97 := rfl
  have e122 : (122 : UInt32).toBitVec.toNat = 122 := rfl
  have ea : ('a'.val).toBitVec.toNat = 97 := rfl
  have ez : ('z'.val).toBitVec.toNat = 122 := rfl
  have e0 : ('0'.val).toBitVec.toNat = 48 := rfl
  have e9 : ('9'.val).toBitVec.toNat = 57 := rfl
  by_cases hc : c.toNat ≥ 65 ∧ c.toNat ≤ 90
  · exfalso
    simp only [Char.isAlphanum, Char.isAlpha, Char.isUpper, Char.isLower, Char.isDigit,
      Bool.or_eq_false_iff, Bool.and_eq_false_iff, decide_eq_false_iff_not] at h
    obtain ⟨⟨h1, h2⟩, h3⟩ := h
    simp only [Char.toNat] at hc
    simp only [GE.ge, UInt32.le_def, BitVec.le_def, UInt32.toNat] at h1 hc
    omega
  · rw [if_neg hc]
    simp only [isSlugChar, Bool.or_eq_false_iff, Bool.and_eq_false_iff, decide_eq_false_iff_not]
    simp only [Char.isAlphanum, Char.isAlpha, Char.isUpper, Char.isLower, Char.isDigit,
      Bool.or_eq_false_iff, Bool.and_eq_false_iff, decide_eq_false_iff_not] at h
    obtain ⟨⟨h1, h2⟩, h3⟩ := h
    simp only [Char.toNat] at hc
    simp only [GE.ge, Char.le_def, UInt32.le_def, BitVec.le_def, UInt32.toNat] at *
    omega

theorem squashDashes_all_dash :
    ∀ l : List Char, (∀ c ∈ l, c = '-') → l ≠ [] → squashDashes l = ['-']
  | [], _, hne => absurd rfl hne
  | [c], h, _ => by
    have : c = '-' := h c (by simp)
    simp [squashDashes, this]
  | c :: d :: rest, h, _ => by
    have hc : c = '-' := h c (by simp)
    have hd : d = '-' := h d (by simp)
    have ih := squashDashes_all_dash (d :: rest)
      (fun x hx => h x (List.mem_cons_of_mem c hx)) (by simp)
    subst hc
    subst hd
    simp [squashDashes, ih]

theorem slugify_ne_empty (s : String) : slugify s ≠ "" := by
  unfold slugify
  by_cases hcore : (stripDash (collapseRuns (s.data.map Char.toLower))).isEmpty
  · simp [hcore]
  · simp only [hcore, if_neg, Bool.false_eq_true, if_false]
    intro h
    have hd := congrArg String.data h
    simp only [String.data] at hd
    rw [hd] at hcore
    simp [List.isEmpty] at hcore

theorem slugify_no_alnum (s : String) (h : ∀ c ∈ s.data, c.isAlphanum = false) :
    slugify s = "category" := by
  unfold slugify collapseRuns
  have hall : ∀ x ∈ (s.data.map Char.toLower).map
      (fun c => if isSlugChar c then c else '-'), x = '-' := by
    intro x hx
    simp only [List.mem_map] at hx
    obtain ⟨c2, ⟨c1, hc1, rfl⟩, rfl⟩ := hx
    rw [toLower_not_slug c1 (h c1 hc1)]
    simp
  cases hs : s.data with
  | nil => simp [hs, squashDashes, stripDash]
  | cons a t =>
    rw [hs] at hall
    rw [squashDashes_all_dash _ hall (by simp)]
    simp [stripDash, List.dropWhile]

/-! ## Helper lemma: re-ensuring an identically-slugged name -/

theorem ensure_twice (cats : List Category) (ctr eid : Nat) (n1 n2 : String) (s1 s2 : Nat)
    (h : slugify n1 = slugify n2) :
    ensure_category (ensure_category cats ctr eid n1 s1).1
        (ensure_category cats ctr eid n1 s1).2.1 eid n2 s2
      = ((ensure_category cats ctr eid n1 s1).1,
         (ensure_category cats ctr eid n1 s1).2.1,
         (ensure_category cats ctr eid n1 s1).2.2) := by
  unfold ensure_category
  rw [← h]
  cases hfind : cats.find? (fun c => c.export_id == eid && c.slug == slugify n1) with
  | some c => simp [hfind]
  | none => simp [hfind, List.find?_append]

/-- C8: for every export and every pair of category names whose slugs are
equal, ensuring the second category after the first returns the identifier of
the existing category and changes neither the table nor the id counter — so
(export, slug) uniquely identifies a category; ensuring a category whose slug
is not yet present inserts exactly one row. -/
theorem claim_C8_ensure_category_unique :
    (∀ (cats : List Category) (ctr eid : Nat) (n1 n2 : String) (s1 s2 : Nat),
       slugify n1 = slugify n2 →
       ensure_category (ensure_category cats ctr eid n1 s1).1
           (ensure_category cats ctr eid n1 s1).2.1 eid n2 s2
         = ((ensure_category cats ctr eid n1 s1).1,
            (ensure_category cats ctr eid n1 s1).2.1,
            (ensure_category cats ctr eid n1 s1).2.2)) ∧
    (∀ (cats : List Category) (ctr eid : Nat) (name : String) (sys : Nat),
       cats.find? (fun c => c.export_id == eid && c.slug == slugify name) = none →
       (ensure_category cats ctr eid name sys).1.length = cats.length + 1) := by
  constructor
  · exact fun cats ctr eid n1 n2 s1 s2 h => ensure_twice cats ctr eid n1 n2 s1 s2 h
  · intro cats ctr eid name sys hfind
    unfold ensure_category
    simp [hfind]

/-- Witness for C8: ensuring "Dog!" then "dog" (equal slugs) in an empty table
reuses the first row, and ensuring a fresh slug adds exactly one row. -/
theorem claim_C8_witness :
    ensure_category (ensure_category [] 0 7 "Dog!" 1).1
        (ensure_category [] 0 7 "Dog!" 1).2.1 7 "dog" 0
      = ((ensure_category [] 0 7 "Dog!" 1).1,
         (ensure_category [] 0 7 "Dog!" 1).2.1,
         (ensure_category [] 0 7 "Dog!" 1).2.2) ∧
    (ensure_category [] 0 7 "dog" 1).1.length = List.length ([] : List Category) + 1 := by
  constructor
  · exact claim_C8_ensure_category_unique.1 [] 0 7 "Dog!" "dog" 1 0 (by decide)
  · exact claim_C8_ensure_category_unique.2 [] 0 7 "dog" 1 rfl

/-- C10: slug derivation always returns a non-empty slug; for an input with no
alphanumeric character it returns the fixed fallback "category"; hence
ensuring categories under any two such names within an export yields the same
category row. -/
theorem claim_C10_slugify_fallback :
    (∀ s : String, slugify s ≠ "") ∧
    (∀ s : String, (∀ c ∈ s.data, c.isAlphanum = false) → slugify s = "category") ∧
    (∀ (cats : List Category) (ctr eid : Nat) (n1 n2 : String) (s1 s2 : Nat),
       (∀ c ∈ n1.data, c.isAlphanum = false) →
       (∀ c ∈ n2.data, c.isAlphanum = false) →
       ensure_category (ensure_category cats ctr eid n1 s1).1
           (ensure_category cats ctr eid n1 s1).2.1 eid n2 s2
         = ((ensure_category cats ctr eid n1 s1).1,
            (ensure_category cats ctr eid n1 s1).2.1,
            (ensure_category cats ctr eid n1 s1).2.2)) := by
  refine ⟨slugify_ne_empty, slugify_no_alnum, ?_⟩
  intro cats ctr eid n1 n2 s1 s2 h1 h2
  exact ensure_twice cats ctr eid n1 n2 s1 s2
    (by rw [slugify_no_alnum n1 h1, slugify_no_alnum n2 h2])

/-- Witness for C10: the all-symbol names "@#!" and "??" both slugify to
"category" and resolve to one category row. -/
theorem claim_C10_witness :
    slugify "@#!" ≠ "" ∧ slugify "@#!" = "category" ∧
    ensure_category (ensure_category [] 0 3 "@#!" 1).1
        (ensure_category [] 0 3 "@#!" 1).2.1 3 "??" 0
      = ((ensure_category [] 0 3 "@#!" 1).1,
         (ensure_category [] 0 3 "@#!" 1).2.1,
         (ensure_category [] 0 3 "@#!" 1).2.2) :=
  ⟨claim_C10_slugify_fallback.1 "@#!",
   claim_C10_slugify_fallback.2.1 "@#!" (by decide),
   claim_C10_slugify_fallback.2.2 [] 0 3 "@#!" "??" 1 0 (by decide) (by decide)⟩

/-! ## C7: safe extraction -/

/-- C7: every archive entry whose path is absolute or contains a `..` segment
is skipped by extraction (removing such entries does not change the performed
writes, and no error arises — extraction is total); every write lands under
the destination with no `..` segment below it; and every non-escaping entry
is extracted under the destination (its directory created or its file
content written). -/
theorem claim_C7_safe_extract (dest : List String) (entries : List ZipEntry) :
    (∀ w ∈ safe_extract dest entries,
       dest <+: w.path ∧ ".." ∉ w.path.drop dest.length) ∧
    (safe_extract dest entries
       = safe_extract dest (entries.filter (fun e => !escapes e))) ∧
    (∀ e ∈ entries, escapes e = false →
       (⟨dest ++ e.parts, e.isDir, if e.isDir then [] else e.bytes⟩ : FsWriteOp) ∈
         safe_extract dest entries) := by
  refine ⟨?_, ?_, ?_⟩
  · intro w hw
    simp only [safe_extract, List.mem_flatMap] at hw
    obtain ⟨e, he, hw⟩ := hw
    cases hesc : escapes e with
    | true => rw [hesc] at hw; simp at hw
    | false =>
      rw [hesc] at hw
      simp only [Bool.false_eq_true, if_false] at hw
      have hdd : ".." ∉ e.parts := by
        simp only [escapes, Bool.or_eq_false_iff] at hesc
        intro hmem
        have helem : List.elem ".." e.parts = true := List.elem_iff.mpr hmem
        have hcon := hesc.2
        simp only [List.contains] at hcon
        rw [helem] at hcon
        exact absurd hcon (by simp)
      simp only [extractOps, List.mem_cons, List.mem_singleton] at hw
      have hsub : ∀ (tail : List String), ".." ∉ tail →
          dest <+: (dest ++ tail) ∧ ".." ∉ (dest ++ tail).drop dest.length := by
        intro tail htail
        exact ⟨List.prefix_append dest tail, by rw [List.drop_left]; exact htail⟩
      rcases hw with hw | hw
      · rw [hw]
        exact hsub _ (fun hm => hdd ((List.dropLast_sublist e.parts).mem hm))
      · cases hdir : e.isDir
        · rw [hdir] at hw
          simp only [Bool.false_eq_true, if_false, List.mem_singleton] at hw
          rw [hw]
          exact hsub _ hdd
        · rw [hdir] at hw
          simp only [if_true, List.mem_singleton] at hw
          rw [hw]
          exact hsub _ hdd
  · induction entries with
    | nil => rfl
    | cons e t ih =>
      cases hesc : escapes e
      · simp only [safe_extract, List.flatMap_cons, List.filter_cons, hesc,
          Bool.not_false, if_true]
        rw [show (safe_extract dest t : List FsWriteOp) = t.flatMap
              (fun e => if escapes e then [] else extractOps dest e) from rfl] at ih
        rw [ih]
        rfl
      · simp only [safe_extract, List.flatMap_cons, List.filter_cons, hesc,
          Bool.not_true, if_false]
        rw [show (safe_extract dest t : List FsWriteOp) = t.flatMap
              (fun e => if escapes e then [] else extractOps dest e) from rfl] at ih
        rw [ih]
        rfl
  · intro e he hesc
    simp only [safe_extract, List.mem_flatMap]
    refine ⟨e, he, ?_⟩
    rw [hesc]
    cases hdir : e.isDir <;>
      simp [extractOps, hdir]

/-- Witness for C7: in a three-entry archive with an absolute entry, a
`..` entry, and a normal file, the normal file is written under the
destination, its write path stays inside the destination, and dropping the
two escaping entries leaves the writes unchanged. -/
theorem claim_C7_witness :
    ((["tmp"] : List String) <+: (["tmp", "a", "b.txt"] : List String) ∧
       ".." ∉ (["tmp", "a", "b.txt"] : List String).drop (["tmp"] : List String).length) ∧
    ((⟨["tmp", "a", "b.txt"], false, [7, 8]⟩ : FsWriteOp) ∈
       safe_extract ["tmp"]
         [⟨true, ["etc", "passwd"], false, [1]⟩, ⟨false, ["..", "x"], false, [2]⟩,
          ⟨false, ["a", "b.txt"], false, [7, 8]⟩]) ∧
    (safe_extract ["tmp"]
         [⟨true, ["etc", "passwd"], false, [1]⟩, ⟨false, ["..", "x"], false, [2]⟩,
          ⟨false, ["a", "b.txt"], false, [7, 8]⟩]
       = safe_extract ["tmp"]
           (List.filter (fun e => !escapes e)
             [⟨true, ["etc", "passwd"], false, [1]⟩, ⟨false, ["..", "x"], false, [2]⟩,
              ⟨false, ["a", "b.txt"], false, [7, 8]⟩])) := by
  refine ⟨?_, ?_, ?_⟩
  · have h := (claim_C7_safe_extract ["tmp"]
      [⟨true, ["etc", "passwd"], false, [1]⟩, ⟨false, ["..", "x"], false, [2]⟩,
       ⟨false, ["a", "b.txt"], false, [7, 8]⟩]).1
      ⟨["tmp", "a", "b.txt"], false, [7, 8]⟩ (by decide)
    exact h
  · exact (claim_C7_safe_extract ["tmp"]
      [⟨true, ["etc", "passwd"], false, [1]⟩, ⟨false, ["..", "x"], false, [2]⟩,
       ⟨false, ["a", "b.txt"], false, [7, 8]⟩]).2.2
      ⟨false, ["a", "b.txt"], false, [7, 8]⟩ (by decide) (by decide)
  · exact (claim_C7_safe_extract ["tmp"]
      [⟨true, ["etc", "passwd"], false, [1]⟩, ⟨false, ["..", "x"], false, [2]⟩,
       ⟨false, ["a", "b.txt"], false, [7, 8]⟩]).2.1

/-! ## C2/C9: the manual conversation move -/

theorem insert_after_delete (l : List Edge) (cid target : Nat) :
    (insertOrIgnoreEdge (l.filter (fun e => e.conversation_id != cid))
        ⟨cid, target, "manual", none⟩).filter (fun e => e.conversation_id == cid)
      = [⟨cid, target, "manual", none⟩] := by
  have hno : ∀ e ∈ l.filter (fun e => e.conversation_id != cid),
      (e.conversation_id == cid) = false := by
    intro e hme
    have hne := List.of_mem_filter hme
    simp only [bne_iff_ne, ne_eq] at hne
    simp [hne]
  have hb : (l.filter (fun e => e.conversation_id != cid)).any
      (fun x => x.conversation_id == cid && x.category_id == target) = false := by
    rw [List.any_eq_false]
    intro x hx
    simp [hno x hx]
  unfold insertOrIgnoreEdge
  rw [hb]
  simp only [Bool.false_eq_true, if_false]
  rw [List.filter_append, List.filter_eq_nil_iff.mpr (fun a ha => by simp [hno a ha])]
  simp

/-- C2 (code bug witness): a manual move that supplies a category id referring
to no category of the export does not fail with a not-found error — it
succeeds, deletes the conversation's existing category edge, and inserts an
edge referencing the nonexistent category id. The schema declares the
`conversation_categories.category_id` foreign key and `init_db` issues
`PRAGMA foreign_keys = ON`, but that pragma is per-connection and `get_conn`
never re-issues it, so the dangling insert is committed. -/
theorem claim_C2_code_bug :
    ((move_conversation
        ⟨[], [⟨1, 1, none, "t", none⟩], [], [], [⟨5, 1, "dog", "dog", 1⟩],
         [⟨1, 5, "auto", some 1⟩], 10, []⟩ 1 1 (some 99) none).toOption.map
        (fun db => db.convCats)) = some [⟨1, 99, "manual", none⟩] ∧
    List.all [(⟨5, 1, "dog", "dog", 1⟩ : Category)] (fun c => c.id != 99) = true := by
  exact ⟨rfl, by decide⟩

/-- C9: for a manual move of an existing conversation, supplying neither a
category id nor a (non-empty) new category name fails with the validation
error and returns no updated store; and whenever the move succeeds, the
conversation is left with exactly one category edge, whose provenance is
`manual` (all previously existing edges having been deleted). -/
theorem claim_C9_move_conversation (db : DB) (eid cid : Nat)
    (category_id : Option Nat) (new_category : Option String)
    (hconv : (db.conversations.find? (fun c => c.id == cid && c.export_id == eid)).isSome) :
    ((category_id = none ∧ (new_category = none ∨ new_category = some "")) →
       move_conversation db eid cid category_id new_category
         = .error ⟨400, "Category is required"⟩) ∧
    (∀ db', move_conversation db eid cid category_id new_category = .ok db' →
       ∃ target, db'.convCats.filter (fun e => e.conversation_id == cid)
         = [⟨cid, target, "manual", none⟩]) := by
  obtain ⟨c, hc⟩ := Option.isSome_iff_exists.mp hconv
  constructor
  · rintro ⟨rfl, hnew⟩
    unfold move_conversation
    rw [hc]
    rcases hnew with rfl | rfl
    · rfl
    · rfl
  · intro db' hok
    unfold move_conversation at hok
    rw [hc] at hok
    rcases new_category with _ | s
    · rcases category_id with _ | t
      · simp at hok
      · refine ⟨t, ?_⟩
        injection hok with h
        rw [← h]
        exact insert_after_delete db.convCats cid t
    · cases hs : s.isEmpty
      · simp only [hs, Bool.not_false, if_true] at hok
        refine ⟨(ensure_category db.categories db.ctr eid s 0).2.2, ?_⟩
        injection hok with h
        rw [← h]
        exact insert_after_delete db.convCats cid _
      · simp only [hs, Bool.not_true, Bool.false_eq_true, if_false] at hok
        rcases category_id with _ | t
        · simp at hok
        · refine ⟨t, ?_⟩
          injection hok with h
          rw [← h]
          exact insert_after_delete db.convCats cid t

/-- Witness for C9: on a store with one conversation and one prior edge, a
move with no target is the 400 validation error, and a move to category 5
leaves exactly the one manual edge. -/
theorem claim_C9_witness :
    move_conversation
        ⟨[], [⟨1, 1, none, "t", none⟩], [], [], [⟨5, 1, "dog", "dog", 1⟩],
         [⟨1, 5, "auto", some 1⟩], 10, []⟩ 1 1 none none
      = .error ⟨400, "Category is required"⟩ ∧
    ∃ target,
      (insertOrIgnoreEdge
          (List.filter (fun e => e.conversation_id != 1) [⟨1, 5, "auto", some 1⟩])
          ⟨1, 5, "manual", none⟩).filter (fun e => e.conversation_id == 1)
        = [(⟨1, target, "manual", none⟩ : Edge)] := by
  constructor
  · exact (claim_C9_move_conversation
      ⟨[], [⟨1, 1, none, "t", none⟩], [], [], [⟨5, 1, "dog", "dog", 1⟩],
       [⟨1, 5, "auto", some 1⟩], 10, []⟩ 1 1 none none (by decide)).1 ⟨rfl, Or.inl rfl⟩
  · exact (claim_C9_move_conversation
      ⟨[], [⟨1, 1, none, "t", none⟩], [], [], [⟨5, 1, "dog", "dog", 1⟩],
       [⟨1, 5, "auto", some 1⟩], 10, []⟩ 1 1 (some 5) none (by decide)).2 _ rfl

/-! ## C1: the orchestrator's status transitions -/

theorem updStatusErr_mem (exports : List ExportRow) (eid : Nat) (st : String)
    (err : Option String) (row : ExportRow)
    (hmem : row ∈ updStatusErr exports eid st err) (hid : row.id = eid) :
    row.status = st ∧ row.error_message = err := by
  simp only [updStatusErr, List.mem_map] at hmem
  obtain ⟨orig, _, hrow⟩ := hmem
  cases horig : orig.id == eid
  · rw [horig] at hrow
    simp only [Bool.false_eq_true, if_false] at hrow
    rw [← hrow] at hid
    rw [hid] at horig
    simp at horig
  · rw [horig] at hrow
    simp only [if_true] at hrow
    rw [← hrow]
    exact ⟨rfl, rfl⟩

/-- C1: for every exception the ingestion body raises (extraction, manifest
parsing, asset registration, normalization, linking, or categorization), the
orchestrator records status `failed` with the exception's message verbatim as
the export's error message and re-raises the same exception to the caller;
when the body raises nothing, the export's status becomes `ready` and its
error message is cleared to null. -/
theorem claim_C1_orchestrator (L : Libs) (eid : Nat)
    (archive : Except String (List ZipEntry)) (db : DB) :
    (∀ msg, (ingestBody L eid archive
        { db with exports := updStatus db.exports eid "processing" }).2 = some msg →
       (parse_export L eid archive db).2 = some msg ∧
       ∀ row ∈ (parse_export L eid archive db).1.exports, row.id = eid →
         row.status = "failed" ∧ row.error_message = some msg) ∧
    ((ingestBody L eid archive
        { db with exports := updStatus db.exports eid "processing" }).2 = none →
       (parse_export L eid archive db).2 = none ∧
       ∀ row ∈ (parse_export L eid archive db).1.exports, row.id = eid →
         row.status = "ready" ∧ row.error_message = none) := by
  constructor
  · intro msg hmsg
    unfold parse_export
    simp only [hmsg]
    exact ⟨trivial, fun row hrow hid => updStatusErr_mem _ _ _ _ row hrow hid⟩
  · intro hok
    unfold parse_export
    simp only [hok]
    exact ⟨trivial, fun row hrow hid => updStatusErr_mem _ _ _ _ row hrow hid⟩

/-- A concrete instantiation of the external library functions, for closed
evaluations. -/
def testLibs : Libs :=
  ⟨fun b => toString b.length, fun _ => some "1970-01-01T00:00:00", fun _ => none,
   fun _ => "obj", fun _ => .ok (.arr [])⟩

/-- Witness for C1: an archive that fails to open with message "boom" leaves
the export failed with that message re-raised, and a well-formed archive with
an empty conversation list leaves it ready with no error. -/
theorem claim_C1_witness :
    (parse_export testLibs 1 (.error "boom")
        ⟨[⟨1, "uploaded", none⟩], [], [], [], [], [], 0, []⟩).2 = some "boom" ∧
    (parse_export testLibs 1 (.ok [⟨false, ["conversations.json"], false, []⟩])
        ⟨[⟨1, "uploaded", none⟩], [], [], [], [], [], 0, []⟩).2 = none ∧
    ((⟨1, "failed", some "boom"⟩ : ExportRow).status = "failed" ∧
       (⟨1, "failed", some "boom"⟩ : ExportRow).error_message = some "boom") ∧
    ((⟨1, "ready", none⟩ : ExportRow).status = "ready" ∧
       (⟨1, "ready", none⟩ : ExportRow).error_message = none) := by
  have hf := (claim_C1_orchestrator testLibs 1 (.error "boom")
    ⟨[⟨1, "uploaded", none⟩], [], [], [], [], [], 0, []⟩).1 "boom" rfl
  have hs := (claim_C1_orchestrator testLibs 1
    (.ok [⟨false, ["conversations.json"], false, []⟩])
    ⟨[⟨1, "uploaded", none⟩], [], [], [], [], [], 0, []⟩).2 rfl
  exact ⟨hf.1, hs.1, hf.2 ⟨1, "failed", some "boom"⟩ (by decide) rfl,
         hs.2 ⟨1, "ready", none⟩ (by decide) rfl⟩

/-! ## C5: linking fills asset associations at most once -/

/-- Row-wise relation between an asset before and after some linking work:
the row keeps its identity and a non-null conversation or message association
keeps its value. -/
def linkMono (a a2 : Asset) : Prop :=
  a2.id = a.id ∧
  (∀ c, a.conversation_id = some c → a2.conversation_id = some c) ∧
  (∀ m, a.message_id = some m → a2.message_id = some m)

theorem linkMono_refl (a : Asset) : linkMono a a :=
  ⟨rfl, fun _ h => h, fun _ h => h⟩

theorem linkMono_trans {a b c : Asset} (h1 : linkMono a b) (h2 : linkMono b c) :
    linkMono a c :=
  ⟨h2.1.trans h1.1, fun x hx => h2.2.1 x (h1.2.1 x hx), fun x hx => h2.2.2 x (h1.2.2 x hx)⟩

theorem assetsMono_refl (l : List Asset) : List.Forall₂ linkMono l l :=
  List.forall₂_same.mpr (fun a _ => linkMono_refl a)

theorem assetsMono_trans :
    ∀ {l1 l2 l3 : List Asset}, List.Forall₂ linkMono l1 l2 →
      List.Forall₂ linkMono l2 l3 → List.Forall₂ linkMono l1 l3
  | _, _, _, .nil, .nil => .nil
  | _, _, _, .cons h1 t1, .cons h2 t2 =>
    .cons (linkMono_trans h1 h2) (assetsMono_trans t1 t2)

theorem linkAssetsUpd_mono (assets : List Asset) (aid c m : Nat) :
    List.Forall₂ linkMono assets (linkAssetsUpd assets aid c m) := by
  induction assets with
  | nil => exact .nil
  | cons a t ih =>
    refine .cons ?_ ih
    cases ha : a.id == aid
    · simp only [linkAssetsUpd, ha, Bool.false_eq_true, if_false]
      exact linkMono_refl a
    · simp only [linkAssetsUpd, ha, if_true]
      refine ⟨rfl, ?_, ?_⟩
      · intro x hx
        simp [hx]
      · intro x hx
        simp [hx]

theorem foldl_assets_mono {β : Type} (step : List Asset → β → List Asset)
    (hstep : ∀ s x, List.Forall₂ linkMono s (step s x)) :
    ∀ (l : List β) (s : List Asset), List.Forall₂ linkMono s (l.foldl step s) := by
  intro l
  induction l with
  | nil => exact fun s => assetsMono_refl s
  | cons x t ih =>
    exact fun s => assetsMono_trans (hstep s x) (ih (step s x))

theorem linkMentions_mono (fmap : List (String × List Nat)) (lowered : String)
    (c m : Nat) (assets : List Asset) :
    List.Forall₂ linkMono assets (linkMentions fmap lowered c m assets) := by
  unfold linkMentions
  refine foldl_assets_mono _ ?_ fmap assets
  intro s entry
  cases hm : strContains lowered entry.1
  · simp only [hm, Bool.false_eq_true, if_false]
    exact assetsMono_refl s
  · simp only [hm, if_true]
    exact foldl_assets_mono _ (fun s2 aid => linkAssetsUpd_mono s2 aid c m) entry.2 s

theorem foldl_db_assets_mono {β γ : Type} (step : (DB × γ) → β → (DB × γ))
    (hstep : ∀ s x, List.Forall₂ linkMono s.1.assets (step s x).1.assets) :
    ∀ (l : List β) (s : DB × γ),
      List.Forall₂ linkMono s.1.assets (l.foldl step s).1.assets := by
  intro l
  induction l with
  | nil => exact fun s => assetsMono_refl s.1.assets
  | cons x t ih =>
    exact fun s => assetsMono_trans (hstep s x) (ih (step s x))

theorem foldl_db_assets_mono' {β γ : Type} (step : (DB × γ) → β → (DB × γ))
    (hstep : ∀ s x, List.Forall₂ linkMono s.1.assets (step s x).1.assets)
    (l : List β) (s : DB × γ) (s0 : List Asset) (h : s.1.assets = s0) :
    List.Forall₂ linkMono s0 (l.foldl step s).1.assets :=
  h ▸ foldl_db_assets_mono step hstep l s

theorem messageStep_mono (L : Libs) (fmap : List (String × List Nat))
    (eid cid : Nat) (acc : DB × List String) (msg : JVal) :
    List.Forall₂ linkMono acc.1.assets ((messageStep L fmap eid cid) acc msg).1.assets := by
  unfold messageStep
  cases he : (msgText L msg).isEmpty
  · simp only [he, Bool.false_eq_true, if_false]
    exact linkMentions_mono fmap _ cid acc.1.ctr acc.1.assets
  · simp only [he, if_true]
    exact assetsMono_refl acc.1.assets

theorem catfold_assets (eid cid : Nat) (blob : String) :
    ∀ (rules : List (String × List String)) (acc : DB × Bool),
      ((rules.foldl (categorizeStep eid cid blob) acc).1).assets = acc.1.assets := by
  intro rules
  induction rules with
  | nil => exact fun acc => rfl
  | cons r t ih =>
    intro acc
    rw [List.foldl_cons, ih]
    unfold categorizeStep
    cases hm : r.2.any (fun kw => strContains blob kw)
    · simp [hm]
    · simp [hm]

theorem autoCategorize_assets (db : DB) (eid cid : Nat) (blob : String) :
    (autoCategorize db eid cid blob).assets = db.assets := by
  unfold autoCategorize
  simp only []
  split
  · exact catfold_assets eid cid blob CATEGORY_RULES (db, false)
  · show (List.foldl (categorizeStep eid cid blob) (db, false) CATEGORY_RULES).1.assets
      = db.assets
    exact catfold_assets eid cid blob CATEGORY_RULES (db, false)

theorem processConv_mono (L : Libs) (eid : Nat) (fmap : List (String × List Nat))
    (db : DB) (conv : JVal) :
    List.Forall₂ linkMono db.assets (processConv L eid fmap db conv).assets := by
  unfold processConv
  rw [autoCategorize_assets]
  exact foldl_db_assets_mono' _ (messageStep_mono L fmap eid db.ctr) _ _ _ rfl

/-- C5: a non-null asset association is never overwritten. The single SQL
update fills the conversation/message fields only where null (`COALESCE`),
and across the whole conversation-processing pass every asset row keeps its
identity and any association value it already had — so the fields are filled
at most once, by the first mention. -/
theorem claim_C5_link_first_wins (L : Libs) (eid : Nat)
    (fmap : List (String × List Nat)) (db : DB) (convs : List JVal) :
    (∀ (assets : List Asset) (aid c m : Nat),
       List.Forall₂ linkMono assets (linkAssetsUpd assets aid c m)) ∧
    List.Forall₂ linkMono db.assets
      ((convs.foldl (processConv L eid fmap) db).assets) := by
  refine ⟨linkAssetsUpd_mono, ?_⟩
  induction convs generalizing db with
  | nil => exact assetsMono_refl db.assets
  | cons conv t ih =>
    exact assetsMono_trans (processConv_mono L eid fmap db conv)
      (ih (processConv L eid fmap db conv))

/-- Witness for C5: one already-linked asset (to conversation 3, message 4)
keeps exactly that association through a further link update aimed at it. -/
theorem claim_C5_witness :
    List.Forall₂ linkMono
      [(⟨9, 1, some 3, some 4, "image", "a.png", ["p"], 1, "h"⟩ : Asset)]
      (linkAssetsUpd [⟨9, 1, some 3, some 4, "image", "a.png", ["p"], 1, "h"⟩] 9 7 8) ∧
    (linkAssetsUpd [(⟨9, 1, some 3, some 4, "image", "a.png", ["p"], 1, "h"⟩ : Asset)] 9 7 8).map
        (fun a => (a.conversation_id, a.message_id)) = [(some 3, some 4)] := by
  constructor
  · exact (claim_C5_link_first_wins testLibs 1 [] ⟨[], [], [], [], [], [], 0, []⟩ []).1
      [⟨9, 1, some 3, some 4, "image", "a.png", ["p"], 1, "h"⟩] 9 7 8
  · decide

/-! ## C6: stored checksum and size describe the persisted bytes -/

theorem find?_map_replace_self (p : List String) (d : List Nat) :
    ∀ fs : List (List String × List Nat), fs.any (fun e => e.1 == p) = true →
      (fs.map (fun e => if e.1 == p then (p, d) else e)).find? (fun e => e.1 == p)
        = some (p, d)
  | [], h => by simp at h
  | e :: t, h => by
    cases he : e.1 == p
    · have ht : t.any (fun e => e.1 == p) = true := by
        simp only [List.any_cons, he, Bool.false_or] at h
        exact h
      simp only [List.map_cons, he, Bool.false_eq_true, if_false, List.find?_cons, he]
      exact find?_map_replace_self p d t ht
    · simp only [List.map_cons, he, if_true, List.find?_cons]
      have : ((p, d).1 == p) = true := by simp
      simp [this]

theorem fsLookup_fsWrite_self (fs : List (List String × List Nat))
    (p : List String) (d : List Nat) : fsLookup (fsWrite fs p d) p = some d := by
  unfold fsWrite fsLookup
  cases hany : fs.any (fun e => e.1 == p)
  · simp only [hany, Bool.false_eq_true, if_false, List.find?_append]
    have hnone : fs.find? (fun e => e.1 == p) = none := by
      rw [List.find?_eq_none]
      intro x hx
      have := List.any_eq_false.mp hany x hx
      simpa using this
    rw [hnone]
    simp
  · simp only [hany, if_true]
    rw [find?_map_replace_self p d fs hany]
    rfl

theorem find?_map_replace_ne (p p2 : List String) (d : List Nat) (h : p2 ≠ p) :
    ∀ fs : List (List String × List Nat),
      (fs.map (fun e => if e.1 == p then (p, d) else e)).find? (fun e => e.1 == p2)
        = fs.find? (fun e => e.1 == p2)
  | [] => rfl
  | e :: t => by
    cases he : e.1 == p
    · simp only [List.map_cons, he, Bool.false_eq_true, if_false, List.find?_cons]
      cases he2 : e.1 == p2
      · exact find?_map_replace_ne p p2 d h t
      · rfl
    · have hep : e.1 = p := by simpa using he
      have he2 : (e.1 == p2) = false := by
        rw [hep]
        simpa using (Ne.symm h)
      have hpd2 : ((p, d).1 == p2) = false := by
        simpa using (Ne.symm h)
      simp only [List.map_cons, he, if_true, List.find?_cons, hpd2, he2]
      exact find?_map_replace_ne p p2 d h t

theorem fsLookup_fsWrite_ne (fs : List (List String × List Nat))
    (p p2 : List String) (d : List Nat) (h : p2 ≠ p) :
    fsLookup (fsWrite fs p d) p2 = fsLookup fs p2 := by
  unfold fsWrite fsLookup
  cases hany : fs.any (fun e => e.1 == p)
  · simp only [hany, Bool.false_eq_true, if_false, List.find?_append]
    have hpd2 : (((p, d) : List String × List Nat).1 == p2) = false := by
      simpa using (Ne.symm h)
    cases hf : fs.find? (fun e => e.1 == p2)
    · simp [hf, List.find?_cons, hpd2]
    · simp [hf]
  · simp only [hany, if_true]
    rw [find?_map_replace_ne p p2 d h fs]

theorem fsWrite_keys_nodup (fs : List (List String × List Nat))
    (p : List String) (d : List Nat) (h : (fs.map Prod.fst).Nodup) :
    ((fsWrite fs p d).map Prod.fst).Nodup := by
  unfold fsWrite
  cases hany : fs.any (fun e => e.1 == p)
  · simp only [hany, Bool.false_eq_true, if_false, List.map_append]
    have hp : p ∉ fs.map Prod.fst := by
      intro hmem
      obtain ⟨e, he, hep⟩ := List.mem_map.mp hmem
      have := List.any_eq_false.mp hany e he
      rw [hep] at this
      simp at this
    simp [List.nodup_append, h, hp]
  · simp only [hany, if_true]
    have : (fs.map (fun e => if e.1 == p then (p, d) else e)).map Prod.fst
        = fs.map Prod.fst := by
      rw [List.map_map]
      refine List.map_congr_left ?_
      intro e _
      cases he : e.1 == p
      · simp only [Function.comp_apply, he, Bool.false_eq_true, if_false]
      · have hep : e.1 = p := by simpa using he
        simp only [Function.comp_apply, he, if_true]
        exact hep.symm
    rw [this]
    exact h

theorem runExtract_keys_nodup (entries : List ZipEntry) :
    ((runExtract entries).map Prod.fst).Nodup := by
  unfold runExtract
  suffices h : ∀ (es : List ZipEntry) (fs : List (List String × List Nat)),
      (fs.map Prod.fst).Nodup →
      ((es.foldl (fun fs e =>
          if escapes e || e.isDir then fs else fsWrite fs e.parts e.bytes) fs).map
        Prod.fst).Nodup by
    exact h entries [] (by simp)
  intro es
  induction es with
  | nil => exact fun fs hfs => hfs
  | cons e t ih =>
    intro fs hfs
    rw [List.foldl_cons]
    cases hesc : escapes e || e.isDir
    · simp only [hesc, Bool.false_eq_true, if_false]
      exact ih _ (fsWrite_keys_nodup fs e.parts e.bytes hfs)
    · simp only [hesc, if_true]
      exact ih _ hfs

theorem register_aux (L : Libs) (eid : Nat) (convPath : List String)
    (base : List Asset) :
    ∀ (fs : List (List String × List Nat)) (db : DB) (fmap : List (String × List Nat)),
    (fs.map Prod.fst).Nodup →
    (∀ a ∈ db.assets, a ∈ base ∨
       ((∃ b, fsLookup db.storageFS a.storage_path = some b ∧
           a.checksum_sha256 = L.sha256 b ∧ a.byte_size = b.length) ∧
        ∀ f ∈ fs, a.storage_path ≠ assetTarget eid f.1)) →
    ∀ a ∈ (fs.foldl (registerStep L eid convPath) (db, fmap)).1.assets,
      a ∈ base ∨
        ∃ b, fsLookup (fs.foldl (registerStep L eid convPath) (db, fmap)).1.storageFS
              a.storage_path = some b ∧
          a.checksum_sha256 = L.sha256 b ∧ a.byte_size = b.length := by
  intro fs
  induction fs with
  | nil =>
    intro db fmap _ hinv a ha
    rcases hinv a ha with h | h
    · exact Or.inl h
    · exact Or.inr h.1
  | cons f t ih =>
    intro db fmap hnodup hinv
    rw [List.foldl_cons]
    have hnodup_t : (t.map Prod.fst).Nodup := (List.nodup_cons.mp hnodup).2
    have hf_notin : f.1 ∉ t.map Prod.fst := (List.nodup_cons.mp hnodup).1
    cases hcp : f.1 == convPath
    · -- the file is registered
      have hstep : registerStep L eid convPath (db, fmap) f =
          (let target := assetTarget eid f.1
           let db1 : DB := { db with storageFS := fsWrite db.storageFS target f.2 }
           match classify_asset (f.1.getLastD "") with
           | none => (db1, fmap)
           | some ty =>
             ({ db1 with
                  assets := db1.assets ++
                    [⟨db1.ctr, eid, none, none, ty, f.1.getLastD "", target,
                      f.2.length, L.sha256 f.2⟩],
                  ctr := db1.ctr + 1 },
              fileMapAdd fmap (lowerStr (f.1.getLastD "")) db1.ctr)) := by
        unfold registerStep
        rw [hcp]
        rfl
      have htne : ∀ g ∈ t, assetTarget eid f.1 ≠ assetTarget eid g.1 := by
        intro g hg hEq
        have : f.1 = g.1 := by
          have := hEq
          unfold assetTarget at this
          simpa using this
        exact hf_notin (this ▸ List.mem_map_of_mem Prod.fst hg)
      have hold : ∀ (db1 : DB), db1.storageFS = fsWrite db.storageFS (assetTarget eid f.1) f.2 →
          ∀ a ∈ db.assets, a ∈ base ∨
            ((∃ b, fsLookup db1.storageFS a.storage_path = some b ∧
                a.checksum_sha256 = L.sha256 b ∧ a.byte_size = b.length) ∧
             ∀ g ∈ t, a.storage_path ≠ assetTarget eid g.1) := by
        intro db1 hfs1 a ha
        rcases hinv a ha with h | ⟨⟨b, hb, hcs, hsz⟩, hne⟩
        · exact Or.inl h
        · refine Or.inr ⟨⟨b, ?_, hcs, hsz⟩, fun g hg => hne g (List.mem_cons_of_mem f hg)⟩
          rw [hfs1, fsLookup_fsWrite_ne db.storageFS _ _ f.2 (hne f (List.mem_cons_self f t))]
          exact hb
      cases hcl : classify_asset (f.1.getLastD "") with
      | none =>
        rw [hstep]
        simp only [hcl]
        exact ih _ _ hnodup_t (hold _ rfl)
      | some ty =>
        rw [hstep]
        simp only [hcl]
        refine ih _ _ hnodup_t ?_
        intro a ha
        rw [List.mem_append] at ha
        rcases ha with ha | ha
        · exact hold _ rfl a ha
        · rw [List.mem_singleton] at ha
          subst ha
          refine Or.inr ⟨⟨f.2, ?_, rfl, rfl⟩, ?_⟩
          · exact fsLookup_fsWrite_self db.storageFS (assetTarget eid f.1) f.2
          · intro g hg
            exact htne g hg
    · -- the manifest file is skipped
      have hstep : registerStep L eid convPath (db, fmap) f = (db, fmap) := by
        unfold registerStep
        rw [hcp]
        rfl
      rw [hstep]
      refine ih db fmap hnodup_t ?_
      intro a ha
      rcases hinv a ha with h | ⟨hb, hne⟩
      · exact Or.inl h
      · exact Or.inr ⟨hb, fun g hg => hne g (List.mem_cons_of_mem f hg)⟩

/-- C6: for every asset registered from an extracted archive, the stored
SHA-256 checksum equals the hash of the bytes of the file at the asset's
storage path in permanent storage, and the stored size equals that file's
byte count — checksum and size describe the persisted artifact. -/
theorem claim_C6_checksum_of_persisted (L : Libs) (eid : Nat)
    (convPath : List String) (entries : List ZipEntry) (db : DB) :
    ∀ a ∈ (registerAssets L eid convPath (runExtract entries) db).1.assets,
      a ∈ db.assets ∨
        ∃ b, fsLookup (registerAssets L eid convPath (runExtract entries) db).1.storageFS
              a.storage_path = some b ∧
          a.checksum_sha256 = L.sha256 b ∧ a.byte_size = b.length := by
  unfold registerAssets
  exact register_aux L eid convPath db.assets (runExtract entries) db []
    (runExtract_keys_nodup entries)
    (fun a ha => Or.inl ha)

/-- Witness for C6: registering a one-file archive stores the file's bytes at
the asset's storage path with matching checksum and size. -/
theorem claim_C6_witness :
    (⟨0, 1, none, none, "image", "a.png", assetTarget 1 ["a.png"], 2,
        testLibs.sha256 [5, 6]⟩ : Asset) ∈ ([] : List Asset) ∨
      ∃ b, fsLookup (registerAssets testLibs 1 ["conversations.json"]
            (runExtract [⟨false, ["a.png"], false, [5, 6]⟩])
            ⟨[], [], [], [], [], [], 0, []⟩).1.storageFS
          (assetTarget 1 ["a.png"]) = some b ∧
        testLibs.sha256 [5, 6] = testLibs.sha256 b ∧ 2 = b.length := by
  have h := claim_C6_checksum_of_persisted testLibs 1 ["conversations.json"]
    [⟨false, ["a.png"], false, [5, 6]⟩] ⟨[], [], [], [], [], [], 0, []⟩
    ⟨0, 1, none, none, "image", "a.png", assetTarget 1 ["a.png"], 2,
      testLibs.sha256 [5, 6]⟩ (by decide)
  exact h

/-! ## C3: messages are persisted in stable ascending timestamp order -/

theorem sortKeyLe_trans (strToNum : String → Option ℚ) :
    ∀ a b c : JVal, decide (sort_key strToNum a ≤ sort_key strToNum b) = true →
      decide (sort_key strToNum b ≤ sort_key strToNum c) = true →
      decide (sort_key strToNum a ≤ sort_key strToNum c) = true := by
  intro a b c hab hbc
  rw [decide_eq_true_iff] at *
  exact le_trans hab hbc

theorem sortKeyLe_total (strToNum : String → Option ℚ) :
    ∀ a b : JVal, (decide (sort_key strToNum a ≤ sort_key strToNum b)
      || decide (sort_key strToNum b ≤ sort_key strToNum a)) = true := by
  intro a b
  rw [Bool.or_eq_true, decide_eq_true_iff, decide_eq_true_iff]
  exact le_total _ _

theorem sortedNodes_filter_key (strToNum : String → Option ℚ) (l : List JVal)
    (k : WithTop ℚ) :
    (sortedNodes strToNum l).filter (fun m => sort_key strToNum m == k)
      = l.filter (fun m => sort_key strToNum m == k) := by
  have hpair : (l.filter (fun m => sort_key strToNum m == k)).Pairwise
      (fun a b => (decide (sort_key strToNum a ≤ sort_key strToNum b)) = true) := by
    refine List.pairwise_of_forall_mem_list ?_
    intro a ha b hb
    have hka : sort_key strToNum a = k := by
      have := List.of_mem_filter ha
      simpa using this
    have hkb : sort_key strToNum b = k := by
      have := List.of_mem_filter hb
      simpa using this
    rw [decide_eq_true_iff, hka, hkb]
  have hsubl : List.Sublist (l.filter (fun m => sort_key strToNum m == k))
      (sortedNodes strToNum l) :=
    List.sublist_mergeSort (sortKeyLe_trans strToNum) (sortKeyLe_total strToNum)
      hpair (List.filter_sublist l)
  have hsubf : List.Sublist (l.filter (fun m => sort_key strToNum m == k))
      ((sortedNodes strToNum l).filter (fun m => sort_key strToNum m == k)) := by
    have h2 := hsubl.filter (fun m => sort_key strToNum m == k)
    rw [List.filter_filter] at h2
    have : (l.filter fun a =>
        (sort_key strToNum a == k) && (sort_key strToNum a == k))
        = l.filter (fun m => sort_key strToNum m == k) := by
      refine List.filter_congr ?_
      intro a _
      rw [Bool.and_self]
    rw [this] at h2
    exact h2
  have hlen : ((sortedNodes strToNum l).filter
        (fun m => sort_key strToNum m == k)).length
      = (l.filter (fun m => sort_key strToNum m == k)).length :=
    ((List.mergeSort_perm l _).filter _).length_eq
  exact (hsubf.eq_of_length hlen.symm).symm

theorem msgfold_messages (L : Libs) (fmap : List (String × List Nat))
    (eid cid : Nat) :
    ∀ (msgs : List JVal) (acc : DB × List String),
      ((msgs.foldl (messageStep L fmap eid cid) acc).1.messages).map
          (fun r => r.content_text)
        = acc.1.messages.map (fun r => r.content_text) ++ msgs.map (msgText L) := by
  intro msgs
  induction msgs with
  | nil => intro acc; simp
  | cons m t ih =>
    intro acc
    rw [List.foldl_cons, ih]
    have hstep : ((messageStep L fmap eid cid acc m).1.messages).map
        (fun r => r.content_text)
        = acc.1.messages.map (fun r => r.content_text) ++ [msgText L m] := by
      unfold messageStep
      cases he : (msgText L m).isEmpty
      · simp only [he, Bool.false_eq_true, if_false]
        simp
      · simp only [he, if_true]
        simp
    rw [hstep]
    simp

theorem catfold_messages (eid cid : Nat) (blob : String) :
    ∀ (rules : List (String × List String)) (acc : DB × Bool),
      ((rules.foldl (categorizeStep eid cid blob) acc).1).messages = acc.1.messages := by
  intro rules
  induction rules with
  | nil => exact fun acc => rfl
  | cons r t ih =>
    intro acc
    rw [List.foldl_cons, ih]
    unfold categorizeStep
    cases hm : r.2.any (fun kw => strContains blob kw)
    · simp [hm]
    · simp [hm]

theorem autoCategorize_messages (db : DB) (eid cid : Nat) (blob : String) :
    (autoCategorize db eid cid blob).messages = db.messages := by
  unfold autoCategorize
  simp only []
  split
  · exact catfold_messages eid cid blob CATEGORY_RULES (db, false)
  · show (List.foldl (categorizeStep eid cid blob) (db, false) CATEGORY_RULES).1.messages
      = db.messages
    exact catfold_messages eid cid blob CATEGORY_RULES (db, false)

/-- C3: the normalizer persists a conversation's messages sorted by numeric
`create_time` ascending — the sorted list is pairwise ordered by the key and
is a permutation of the collected messages; a message whose `create_time` is
missing, null, or not convertible to a number has key `⊤` (positive
infinity), hence sorts after every timestamped message; the relative order of
equal-key messages is preserved from the input (stability, hence identical
across repeated runs); and the message rows are appended to the store in
exactly this sorted order. -/
theorem claim_C3_stable_message_order (L : Libs) (conv : JVal) :
    (sortedNodes L.strToNum (convMessages conv)).Pairwise
      (fun a b => sort_key L.strToNum a ≤ sort_key L.strToNum b) ∧
    (sortedNodes L.strToNum (convMessages conv)).Perm (convMessages conv) ∧
    (∀ k, (sortedNodes L.strToNum (convMessages conv)).filter
          (fun m => sort_key L.strToNum m == k)
        = (convMessages conv).filter (fun m => sort_key L.strToNum m == k)) ∧
    (∀ m : JVal, (jGet m "create_time" = none ∨ jGet m "create_time" = some .null ∨
        (∃ v, jGet m "create_time" = some v ∧ jToFloat L.strToNum v = none)) →
      sort_key L.strToNum m = ⊤) ∧
    (∀ (fmap : List (String × List Nat)) (db : DB) (eid : Nat),
       (processConv L eid fmap db conv).messages.map (fun r => r.content_text)
         = db.messages.map (fun r => r.content_text)
           ++ (sortedNodes L.strToNum (convMessages conv)).map (msgText L)) := by
  refine ⟨?_, ?_, ?_, ?_, ?_⟩
  · have h := @List.sorted_mergeSort JVal
      (fun a b => decide (sort_key L.strToNum a ≤ sort_key L.strToNum b))
      (sortKeyLe_trans L.strToNum) (sortKeyLe_total L.strToNum) (convMessages conv)
    exact h.imp (fun hab => of_decide_eq_true hab)
  · exact List.mergeSort_perm (convMessages conv) _
  · exact fun k => sortedNodes_filter_key L.strToNum (convMessages conv) k
  · intro m hm
    unfold sort_key
    rcases hm with h | h | ⟨v, hv, hf⟩
    · rw [h]
    · rw [h]
    · rw [hv]
      cases v with
      | null => rfl
      | bool b => simp [jToFloat] at hf
      | num q => simp [jToFloat] at hf
      | str s =>
        simp only [jToFloat] at hf
        simp only [jToFloat, hf]
      | arr l2 => rfl
      | obj kvs => rfl
  · intro fmap db eid
    unfold processConv
    rw [autoCategorize_messages]
    rw [msgfold_messages L fmap eid db.ctr (sortedNodes L.strToNum (convMessages conv))]

/-- Witness for C3: a message with a null `create_time` and a message with a
non-numeric string `create_time` both get the infinite sort key, and the
sorted message list of a concrete conversation is a permutation of its
collected messages. -/
theorem claim_C3_witness :
    sort_key testLibs.strToNum (JVal.obj [("create_time", JVal.null)]) = ⊤ ∧
    sort_key testLibs.strToNum (JVal.obj [("create_time", JVal.str "not a number")]) = ⊤ ∧
    (sortedNodes testLibs.strToNum (convMessages (JVal.obj
        [("mapping", JVal.obj
          [("n1", JVal.obj [("message", JVal.obj [("create_time", JVal.num 5)])]),
           ("n2", JVal.obj [("message", JVal.obj [("create_time", JVal.null)])]),
           ("n3", JVal.obj [("message", JVal.obj [("create_time", JVal.num 2)])])])]))).Perm
      (convMessages (JVal.obj
        [("mapping", JVal.obj
          [("n1", JVal.obj [("message", JVal.obj [("create_time", JVal.num 5)])]),
           ("n2", JVal.obj [("message", JVal.obj [("create_time", JVal.null)])]),
           ("n3", JVal.obj [("message", JVal.obj [("create_time", JVal.num 2)])])])])) := by
  refine ⟨?_, ?_, ?_⟩
  · exact (claim_C3_stable_message_order testLibs (JVal.obj [])).2.2.2.1
      (JVal.obj [("create_time", JVal.null)]) (Or.inr (Or.inl rfl))
  · exact (claim_C3_stable_message_order testLibs (JVal.obj [])).2.2.2.1
      (JVal.obj [("create_time", JVal.str "not a number")]) (Or.inr (Or.inr ⟨_, rfl, rfl⟩))
  · exact (claim_C3_stable_message_order testLibs (JVal.obj
      [("mapping", JVal.obj
        [("n1", JVal.obj [("message", JVal.obj [("create_time", JVal.num 5)])]),
         ("n2", JVal.obj [("message", JVal.obj [("create_time", JVal.null)])]),
         ("n3", JVal.obj [("message", JVal.obj [("create_time", JVal.num 2)])])])])).2.1

/-! ## C4: automatic categorization always yields at least one edge -/

/-- Well-formedness of the categories table relative to the id counter: every
row's id is below the counter (ids are generated fresh from it) and the slug
is a function of the id. Both hold for every table the pipeline builds. -/
def WFcats (cats : List Category) (ctr : Nat) : Prop :=
  (∀ c ∈ cats, c.id < ctr) ∧
  ∀ c ∈ cats, ∀ c2 ∈ cats, c.id = c2.id → c.slug = c2.slug

/-- The slug of the category row with a given id. -/
def slugOfCat (cats : List Category) (i : Nat) : Option String :=
  (cats.find? (fun c => c.id == i)).map (fun c => c.slug)

/-- The category edges of one conversation. -/
def convEdges (edges : List Edge) (cid : Nat) : List Edge :=
  edges.filter (fun e => e.conversation_id == cid)

theorem ensure_out (cats : List Category) (ctr eid : Nat) (name : String) (sys : Nat) :
    (∀ c, cats.find? (fun c => c.export_id == eid && c.slug == slugify name) = some c →
       ensure_category cats ctr eid name sys = (cats, ctr, c.id)) ∧
    (cats.find? (fun c => c.export_id == eid && c.slug == slugify name) = none →
       ensure_category cats ctr eid name sys
         = (cats ++ [⟨ctr, eid, name, slugify name, sys⟩], ctr + 1, ctr)) := by
  constructor
  · intro c hfind
    unfold ensure_category
    simp only []
    rw [hfind]
  · intro hfind
    unfold ensure_category
    simp only []
    rw [hfind]

theorem ensure_wf (cats : List Category) (ctr eid : Nat) (name : String) (sys : Nat)
    (h : WFcats cats ctr) :
    WFcats (ensure_category cats ctr eid name sys).1
        (ensure_category cats ctr eid name sys).2.1 ∧
    ctr ≤ (ensure_category cats ctr eid name sys).2.1 := by
  cases hfind : cats.find? (fun c => c.export_id == eid && c.slug == slugify name) with
  | some c =>
    rw [(ensure_out cats ctr eid name sys).1 c hfind]
    exact ⟨h, le_refl ctr⟩
  | none =>
    rw [(ensure_out cats ctr eid name sys).2 hfind]
    refine ⟨⟨?_, ?_⟩, Nat.le_succ ctr⟩
    · intro c hc
      rw [List.mem_append] at hc
      rcases hc with hc | hc
      · exact lt_trans (h.1 c hc) (Nat.lt_succ_self ctr)
      · rw [List.mem_singleton] at hc
        rw [hc]
        exact Nat.lt_succ_self ctr
    · intro c hc c2 hc2 hid
      rw [List.mem_append] at hc hc2
      rcases hc with hc | hc <;> rcases hc2 with hc2 | hc2
      · exact h.2 c hc c2 hc2 hid
      · rw [List.mem_singleton] at hc2
        exfalso
        rw [hc2] at hid
        exact absurd hid (Nat.ne_of_lt (h.1 c hc))
      · rw [List.mem_singleton] at hc
        exfalso
        rw [hc] at hid
        exact absurd hid.symm (Nat.ne_of_lt (h.1 c2 hc2))
      · rw [List.mem_singleton] at hc hc2
        rw [hc, hc2]

theorem ensure_ret (cats : List Category) (ctr eid : Nat) (name : String) (sys : Nat)
    (h : WFcats cats ctr) :
    slugOfCat (ensure_category cats ctr eid name sys).1
        (ensure_category cats ctr eid name sys).2.2 = some (slugify name) := by
  cases hfind : cats.find? (fun c => c.export_id == eid && c.slug == slugify name) with
  | some c =>
    rw [(ensure_out cats ctr eid name sys).1 c hfind]
    have hcmem := List.mem_of_find?_eq_some hfind
    have hcpred := List.find?_some hfind
    have hcslug : c.slug = slugify name := by
      have := (Bool.and_eq_true _ _).mp hcpred
      simpa using this.2
    unfold slugOfCat
    cases hf2 : cats.find? (fun c2 => c2.id == c.id) with
    | none =>
      exfalso
      have := List.find?_eq_none.mp hf2 c hcmem
      simp at this
    | some c2 =>
      have hc2mem := List.mem_of_find?_eq_some hf2
      have hc2pred := List.find?_some hf2
      have hc2id : c2.id = c.id := by simpa using hc2pred
      have : c2.slug = c.slug := h.2 c2 hc2mem c hcmem hc2id
      simp [hf2, this, hcslug]
  | none =>
    rw [(ensure_out cats ctr eid name sys).2 hfind]
    unfold slugOfCat
    rw [List.find?_append]
    have h1 : cats.find? (fun c => c.id == ctr) = none := by
      rw [List.find?_eq_none]
      intro c hc
      have := Nat.ne_of_lt (h.1 c hc)
      simpa using this
    rw [h1]
    simp

theorem ensure_slugOf_pres (cats : List Category) (ctr eid : Nat) (name : String)
    (sys : Nat) (i : Nat) (s : String) (h : slugOfCat cats i = some s) :
    slugOfCat (ensure_category cats ctr eid name sys).1 i = some s := by
  cases hfind : cats.find? (fun c => c.export_id == eid && c.slug == slugify name) with
  | some c =>
    rw [(ensure_out cats ctr eid name sys).1 c hfind]
    exact h
  | none =>
    rw [(ensure_out cats ctr eid name sys).2 hfind]
    unfold slugOfCat at h ⊢
    rw [List.find?_append]
    obtain ⟨c, hc, hcs⟩ := Option.map_eq_some'.mp h
    rw [hc]
    simpa using hcs

theorem catfold_spec (eid cid : Nat) (blob : String) :
    ∀ (rules : List (String × List String)) (db : DB) (m : Bool) (S : List String),
    WFcats db.categories db.ctr →
    ((rules.map (fun r => slugify r.1)).Nodup) →
    (∀ r ∈ rules, slugify r.1 ∉ S) →
    ((convEdges db.convCats cid).map (fun e => slugOfCat db.categories e.category_id)
       = S.map some) →
    (∀ e ∈ convEdges db.convCats cid, e.source = "auto" ∧ e.confidence = some 1) →
    WFcats (rules.foldl (categorizeStep eid cid blob) (db, m)).1.categories
        (rules.foldl (categorizeStep eid cid blob) (db, m)).1.ctr ∧
    ((convEdges (rules.foldl (categorizeStep eid cid blob) (db, m)).1.convCats cid).map
        (fun e => slugOfCat
          (rules.foldl (categorizeStep eid cid blob) (db, m)).1.categories e.category_id)
       = (S ++ (rules.filter (fun r => r.2.any (fun kw => strContains blob kw))).map
            (fun r => slugify r.1)).map some) ∧
    (∀ e ∈ convEdges (rules.foldl (categorizeStep eid cid blob) (db, m)).1.convCats cid,
       e.source = "auto" ∧ e.confidence = some 1) ∧
    (rules.foldl (categorizeStep eid cid blob) (db, m)).2
      = (m || rules.any (fun r => r.2.any (fun kw => strContains blob kw))) := by
  intro rules
  induction rules with
  | nil =>
    intro db m S hwf _ _ hmap hsrc
    refine ⟨hwf, ?_, hsrc, ?_⟩
    · simpa using hmap
    · simp
  | cons r t ih =>
    intro db m S hwf hnodup hnotin hmap hsrc
    rw [List.foldl_cons]
    have hnodup_t : (t.map (fun r => slugify r.1)).Nodup := (List.nodup_cons.mp hnodup).2
    have hr_notin_t : slugify r.1 ∉ t.map (fun r => slugify r.1) :=
      (List.nodup_cons.mp hnodup).1
    cases hm : r.2.any (fun kw => strContains blob kw)
    · -- the rule does not match: the step is the identity
      have hstep : categorizeStep eid cid blob (db, m) r = (db, m) := by
        unfold categorizeStep
        simp only []
        rw [hm]
        rfl
      rw [hstep]
      obtain ⟨h1, h2, h3, h4⟩ := ih db m S hwf hnodup_t
        (fun r2 hr2 => hnotin r2 (List.mem_cons_of_mem r hr2)) hmap hsrc
      refine ⟨h1, ?_, h3, ?_⟩
      · rw [List.filter_cons, hm]
        simpa using h2
      · rw [h4, List.any_cons, hm, Bool.false_or]
    · -- the rule matches: ensure its category and append the auto edge
      have hstep : categorizeStep eid cid blob (db, m) r =
          ({ db with
               categories := (ensure_category db.categories db.ctr eid r.1 1).1,
               ctr := (ensure_category db.categories db.ctr eid r.1 1).2.1,
               convCats := insertOrIgnoreEdge db.convCats
                 ⟨cid, (ensure_category db.categories db.ctr eid r.1 1).2.2,
                  "auto", some 1⟩ }, true) := by
        unfold categorizeStep
        simp only []
        rw [hm]
        rfl
      rw [hstep]
      have hwf2 := (ensure_wf db.categories db.ctr eid r.1 1 hwf).1
      have hsnew := ensure_ret db.categories db.ctr eid r.1 1 hwf
      have hmem_slug : ∀ e ∈ convEdges db.convCats cid,
          ∃ s ∈ S, slugOfCat db.categories e.category_id = some s := by
        intro e he
        have hmm := List.mem_map_of_mem
          (fun e => slugOfCat db.categories e.category_id) he
        rw [hmap] at hmm
        obtain ⟨s, hs, hse⟩ := List.mem_map.mp hmm
        exact ⟨s, hs, hse.symm⟩
      have hins : insertOrIgnoreEdge db.convCats
          ⟨cid, (ensure_category db.categories db.ctr eid r.1 1).2.2, "auto", some 1⟩
          = db.convCats ++
            [⟨cid, (ensure_category db.categories db.ctr eid r.1 1).2.2,
              "auto", some 1⟩] := by
        unfold insertOrIgnoreEdge
        have hany : db.convCats.any (fun x =>
            x.conversation_id == cid &&
            x.category_id == (ensure_category db.categories db.ctr eid r.1 1).2.2)
            = false := by
          rw [List.any_eq_false]
          intro x hx
          simp only [Bool.and_eq_true, not_and]
          intro hx1 hx2
          have hxconv : x ∈ convEdges db.convCats cid :=
            List.mem_filter.mpr ⟨hx, hx1⟩
          obtain ⟨s, hsS, hslug⟩ := hmem_slug x hxconv
          have hxid : x.category_id
              = (ensure_category db.categories db.ctr eid r.1 1).2.2 := by
            simpa using hx2
          rw [hxid] at hslug
          have := ensure_slugOf_pres db.categories db.ctr eid r.1 1 _ s hslug
          rw [hsnew] at this
          have : slugify r.1 = s := by simpa using this
          exact hnotin r (List.mem_cons_self r t) (this ▸ hsS)
        rw [hany]
        simp
      have hconvApp : convEdges (db.convCats ++
            [⟨cid, (ensure_category db.categories db.ctr eid r.1 1).2.2,
              "auto", some 1⟩]) cid
          = convEdges db.convCats cid ++
            [⟨cid, (ensure_category db.categories db.ctr eid r.1 1).2.2,
              "auto", some 1⟩] := by
        unfold convEdges
        rw [List.filter_append]
        simp
      have hpres_old : ∀ e ∈ convEdges db.convCats cid,
          slugOfCat (ensure_category db.categories db.ctr eid r.1 1).1 e.category_id
            = slugOfCat db.categories e.category_id := by
        intro e he
        obtain ⟨s, _, hslug⟩ := hmem_slug e he
        rw [hslug]
        exact ensure_slugOf_pres db.categories db.ctr eid r.1 1 _ s hslug
      have hmap2 : (convEdges (insertOrIgnoreEdge db.convCats
            ⟨cid, (ensure_category db.categories db.ctr eid r.1 1).2.2,
             "auto", some 1⟩) cid).map
          (fun e => slugOfCat (ensure_category db.categories db.ctr eid r.1 1).1
            e.category_id)
          = (S ++ [slugify r.1]).map some := by
        rw [hins, hconvApp, List.map_append]
        have hold : (convEdges db.convCats cid).map
            (fun e => slugOfCat (ensure_category db.categories db.ctr eid r.1 1).1
              e.category_id)
            = S.map some := by
          rw [List.map_congr_left hpres_old]
          exact hmap
        rw [hold]
        simp only [List.map_cons, List.map_nil, hsnew]
        rw [List.map_append]
        rfl
      have hsrc2 : ∀ e ∈ convEdges (insertOrIgnoreEdge db.convCats
            ⟨cid, (ensure_category db.categories db.ctr eid r.1 1).2.2,
             "auto", some 1⟩) cid,
          e.source = "auto" ∧ e.confidence = some 1 := by
        rw [hins, hconvApp]
        intro e he
        rw [List.mem_append] at he
        rcases he with he | he
        · exact hsrc e he
        · rw [List.mem_singleton] at he
          rw [he]
          exact ⟨rfl, rfl⟩
      have hnotin2 : ∀ r2 ∈ t, slugify r2.1 ∉ S ++ [slugify r.1] := by
        intro r2 hr2 hmem
        rw [List.mem_append] at hmem
        rcases hmem with hmem | hmem
        · exact hnotin r2 (List.mem_cons_of_mem r hr2) hmem
        · rw [List.mem_singleton] at hmem
          exact hr_notin_t (hmem ▸ List.mem_map_of_mem (fun r => slugify r.1) hr2)
      obtain ⟨h1, h2, h3, h4⟩ := ih
        { db with
            categories := (ensure_category db.categories db.ctr eid r.1 1).1,
            ctr := (ensure_category db.categories db.ctr eid r.1 1).2.1,
            convCats := insertOrIgnoreEdge db.convCats
              ⟨cid, (ensure_category db.categories db.ctr eid r.1 1).2.2,
               "auto", some 1⟩ }
        true (S ++ [slugify r.1]) hwf2 hnodup_t hnotin2 hmap2 hsrc2
      refine ⟨h1, ?_, h3, ?_⟩
      · rw [h2, List.filter_cons, hm]
        simp only [if_true, List.map_cons]
        rw [List.append_assoc]
        rfl
      · rw [h4, List.any_cons, hm]
        simp

/-- C4: after automatic categorization a conversation's set of category edges
is non-empty; every edge carries provenance `auto` and confidence 1.0; when
at least one keyword rule matches the lower-cased blob, the conversation gets
exactly one edge per matching rule (in rule order, to categories slugged from
the rule names); when no rule matches, it gets exactly one edge, to the
`uncategorized` category. Hypotheses: the categories table is well-formed and
the conversation (fresh, just inserted) has no edges yet. -/
theorem claim_C4_categorization_nonempty (db : DB) (eid cid : Nat) (blob : String)
    (hwf : WFcats db.categories db.ctr)
    (hno : convEdges db.convCats cid = []) :
    convEdges (autoCategorize db eid cid blob).convCats cid ≠ [] ∧
    (∀ e ∈ convEdges (autoCategorize db eid cid blob).convCats cid,
       e.source = "auto" ∧ e.confidence = some 1) ∧
    (matchedRules blob ≠ [] →
       (convEdges (autoCategorize db eid cid blob).convCats cid).map
           (fun e => slugOfCat (autoCategorize db eid cid blob).categories e.category_id)
         = (matchedRules blob).map (fun r => some (slugify r.1))) ∧
    (matchedRules blob = [] →
       ∃ u, convEdges (autoCategorize db eid cid blob).convCats cid
           = [⟨cid, u, "auto", some 1⟩] ∧
         slugOfCat (autoCategorize db eid cid blob).categories u
           = some "uncategorized") := by
  have hnodup : (CATEGORY_RULES.map (fun r => slugify r.1)).Nodup := by decide
  obtain ⟨hW, hmapF, hsrcF, hanyF⟩ := catfold_spec eid cid blob CATEGORY_RULES db false []
    hwf hnodup (by simp)
    (by rw [hno]; rfl)
    (by rw [hno]; intro e he; exact absurd he (List.not_mem_nil e))
  rw [Bool.false_or] at hanyF
  cases hany : CATEGORY_RULES.any (fun r => r.2.any (fun kw => strContains blob kw))
  · -- no rule matched: the fallback to `uncategorized`
    rw [hany] at hanyF
    have hmatched : matchedRules blob = [] := by
      unfold matchedRules
      rw [List.filter_eq_nil_iff]
      intro r hr
      have := List.any_eq_false.mp hany r hr
      simpa using this
    have hauto : autoCategorize db eid cid blob =
        { (CATEGORY_RULES.foldl (categorizeStep eid cid blob) (db, false)).1 with
            categories := (ensure_category
              (CATEGORY_RULES.foldl (categorizeStep eid cid blob) (db, false)).1.categories
              (CATEGORY_RULES.foldl (categorizeStep eid cid blob) (db, false)).1.ctr
              eid "uncategorized" 1).1,
            ctr := (ensure_category
              (CATEGORY_RULES.foldl (categorizeStep eid cid blob) (db, false)).1.categories
              (CATEGORY_RULES.foldl (categorizeStep eid cid blob) (db, false)).1.ctr
              eid "uncategorized" 1).2.1,
            convCats := insertOrIgnoreEdge
              (CATEGORY_RULES.foldl (categorizeStep eid cid blob) (db, false)).1.convCats
              ⟨cid, (ensure_category
                (CATEGORY_RULES.foldl (categorizeStep eid cid blob) (db, false)).1.categories
                (CATEGORY_RULES.foldl (categorizeStep eid cid blob) (db, false)).1.ctr
                eid "uncategorized" 1).2.2, "auto", some 1⟩ } := by
      unfold autoCategorize
      simp only [hanyF]
      rfl
    have hempty : convEdges
        (CATEGORY_RULES.foldl (categorizeStep eid cid blob) (db, false)).1.convCats cid
        = [] := by
      have hfilters : CATEGORY_RULES.filter
          (fun r => r.2.any (fun kw => strContains blob kw)) = [] := hmatched
      rw [hfilters] at hmapF
      simpa using hmapF
    have hins : insertOrIgnoreEdge
        (CATEGORY_RULES.foldl (categorizeStep eid cid blob) (db, false)).1.convCats
        ⟨cid, (ensure_category
          (CATEGORY_RULES.foldl (categorizeStep eid cid blob) (db, false)).1.categories
          (CATEGORY_RULES.foldl (categorizeStep eid cid blob) (db, false)).1.ctr
          eid "uncategorized" 1).2.2, "auto", some 1⟩
        = (CATEGORY_RULES.foldl (categorizeStep eid cid blob) (db, false)).1.convCats ++
          [⟨cid, (ensure_category
            (CATEGORY_RULES.foldl (categorizeStep eid cid blob) (db, false)).1.categories
            (CATEGORY_RULES.foldl (categorizeStep eid cid blob) (db, false)).1.ctr
            eid "uncategorized" 1).2.2, "auto", some 1⟩] := by
      unfold insertOrIgnoreEdge
      have hanyck : (CATEGORY_RULES.foldl (categorizeStep eid cid blob)
          (db, false)).1.convCats.any (fun x =>
            x.conversation_id == cid && x.category_id == (ensure_category
              (CATEGORY_RULES.foldl (categorizeStep eid cid blob) (db, false)).1.categories
              (CATEGORY_RULES.foldl (categorizeStep eid cid blob) (db, false)).1.ctr
              eid "uncategorized" 1).2.2) = false := by
        rw [List.any_eq_false]
        intro x hx
        simp only [Bool.and_eq_true, not_and]
        intro hx1 _
        have : x ∈ convEdges
            (CATEGORY_RULES.foldl (categorizeStep eid cid blob) (db, false)).1.convCats
            cid := List.mem_filter.mpr ⟨hx, hx1⟩
        rw [hempty] at this
        exact absurd this (List.not_mem_nil x)
      rw [hanyck]
      simp
    have hslugU : slugOfCat (ensure_category
          (CATEGORY_RULES.foldl (categorizeStep eid cid blob) (db, false)).1.categories
          (CATEGORY_RULES.foldl (categorizeStep eid cid blob) (db, false)).1.ctr
          eid "uncategorized" 1).1
        (ensure_category
          (CATEGORY_RULES.foldl (categorizeStep eid cid blob) (db, false)).1.categories
          (CATEGORY_RULES.foldl (categorizeStep eid cid blob) (db, false)).1.ctr
          eid "uncategorized" 1).2.2 = some "uncategorized" := by
      have := ensure_ret
        (CATEGORY_RULES.foldl (categorizeStep eid cid blob) (db, false)).1.categories
        (CATEGORY_RULES.foldl (categorizeStep eid cid blob) (db, false)).1.ctr
        eid "uncategorized" 1 hW
      rw [this]
      decide
    have hconvNew : convEdges (autoCategorize db eid cid blob).convCats cid
        = [⟨cid, (ensure_category
            (CATEGORY_RULES.foldl (categorizeStep eid cid blob) (db, false)).1.categories
            (CATEGORY_RULES.foldl (categorizeStep eid cid blob) (db, false)).1.ctr
            eid "uncategorized" 1).2.2, "auto", some 1⟩] := by
      rw [hauto]
      show convEdges (insertOrIgnoreEdge _ _) cid = _
      rw [hins]
      unfold convEdges
      rw [List.filter_append]
      unfold convEdges at hempty
      rw [hempty]
      simp
    refine ⟨?_, ?_, ?_, ?_⟩
    · rw [hconvNew]
      simp
    · rw [hconvNew]
      intro e he
      rw [List.mem_singleton] at he
      rw [he]
      exact ⟨rfl, rfl⟩
    · intro hne
      exact absurd hmatched hne
    · intro _
      refine ⟨_, hconvNew, ?_⟩
      rw [hauto]
      exact hslugU
  · -- at least one rule matched
    rw [hany] at hanyF
    have hauto : autoCategorize db eid cid blob =
        (CATEGORY_RULES.foldl (categorizeStep eid cid blob) (db, false)).1 := by
      unfold autoCategorize
      simp only [hanyF]
      rfl
    have hmatched : matchedRules blob ≠ [] := by
      unfold matchedRules
      intro hnil
      obtain ⟨r, hr, hp⟩ := List.any_eq_true.mp hany
      exact absurd hp (by simpa using List.filter_eq_nil_iff.mp hnil r hr)
    have hmap2 : (convEdges (autoCategorize db eid cid blob).convCats cid).map
        (fun e => slugOfCat (autoCategorize db eid cid blob).categories e.category_id)
        = (matchedRules blob).map (fun r => some (slugify r.1)) := by
      rw [hauto]
      rw [hmapF]
      rw [List.nil_append, List.map_map]
      rfl
    refine ⟨?_, ?_, fun _ => hmap2, fun h => absurd h hmatched⟩
    · intro hnil
      rw [hnil] at hmap2
      have : matchedRules blob = [] := by
        have := hmap2.symm
        simpa using this
      exact absurd this hmatched
    · rw [hauto]
      exact hsrcF

/-- Witness for C4: on an empty store, the blob "my dog is cute" matches only
the "dog" rule and yields exactly the edge to the dog category, while the
blob "zzz" matches nothing and yields exactly one edge to `uncategorized`. -/
theorem claim_C4_witness :
    ((convEdges (autoCategorize ⟨[], [], [], [], [], [], 0, []⟩ 1 7
          "my dog is cute").convCats 7).map
        (fun e => slugOfCat (autoCategorize ⟨[], [], [], [], [], [], 0, []⟩ 1 7
          "my dog is cute").categories e.category_id)
      = (matchedRules "my dog is cute").map (fun r => some (slugify r.1))) ∧
    (∃ u, convEdges (autoCategorize ⟨[], [], [], [], [], [], 0, []⟩ 1 7
          "zzz").convCats 7 = [⟨7, u, "auto", some 1⟩] ∧
       slugOfCat (autoCategorize ⟨[], [], [], [], [], [], 0, []⟩ 1 7
          "zzz").categories u = some "uncategorized") := by
  have hwf : WFcats ([] : List Category) 0 :=
    ⟨fun c hc => absurd hc (List.not_mem_nil c),
     fun c hc => absurd hc (List.not_mem_nil c)⟩
  constructor
  · exact (claim_C4_categorization_nonempty ⟨[], [], [], [], [], [], 0, []⟩ 1 7
      "my dog is cute" hwf rfl).2.2.1 (by decide)
  · exact (claim_C4_categorization_nonempty ⟨[], [], [], [], [], [], 0, []⟩ 1 7
      "zzz" hwf rfl).2.2.2 (by decide)

end Brain
